import Mathlib

/-!
Verification development for a population-based ("cultural algorithm") Sudoku
solver.  Boards are lists of rows of naturals; `0` marks an empty cell.

Randomness is modelled by an explicit stream `rho : Nat → Nat` of oracle
values together with a counter threaded through the computation; each call to
the random source consumes fresh positions of the stream.  Properties proved
about all streams cover every possible run of the randomized program.

Python's `float('inf')` sentinel is modelled as `⊤ : WithTop Nat` (fitness
values themselves are naturals), and the float parameter `elite_frac` is
modelled as an exact rational.
-/

namespace Sudoku

abbrev Board := List (List Nat)

/-- Integer square root by bounded search: the number of `b ≤ n` with
`b * b ≤ n`, minus one — i.e. the largest `b` with `b * b ≤ n`.  Models
Python's truncated float square root `int(n**0.5)` on the board sizes in
use. -/
def isqrt (n : Nat) : Nat :=
  ((List.range (n + 1)).filter (fun b => b * b ≤ n)).length - 1

/-- Models `SudokuLogic.get_block_dims`: `(2, 3)` for `N = 6`, otherwise
`(int(N**0.5), int(N**0.5))`. -/
def get_block_dims (N : Nat) : Nat × Nat :=
  if N = 6 then (2, 3) else (isqrt N, isqrt N)

/-- Models `SudokuLogic.clone_board`: `[row[:] for row in board]`.  Row
slicing is a value copy, so on immutable list values cloning is the
row-wise identity. -/
def clone_board (b : Board) : Board := b.map (fun row => row)

/-- Board cell access `board[r][c]`, returning `0` when out of range
(Python raises there; all reachable uses stay in range). -/
def valAt (b : Board) (r c : Nat) : Nat := (b.getD r []).getD c 0

/-- Models `SudokuLogic.valid_in_cell`: `True` for `val == 0`, otherwise the
row, the column and the containing block are scanned for `val` (the scans
include the queried cell itself). -/
def valid_in_cell (board : Board) (r c val : Nat) : Bool :=
  let N := board.length
  let dims := get_block_dims N
  if val = 0 then true
  else if (List.range N).any (fun j => valAt board r j == val) then false
  else if (List.range N).any (fun i => valAt board i c == val) then false
  else
    let sr := r / dims.1 * dims.1
    let sc := c / dims.2 * dims.2
    if (List.range dims.1).any (fun i =>
        (List.range dims.2).any (fun j => valAt board (sr + i) (sc + j) == val)) then false
    else true

/-- The running `seen`-set loop of `CulturalSolverImpl.fitness`: one conflict
is counted for every element already seen before it. -/
def dup_count_go (seen : List Nat) : List Nat → Nat
  | [] => 0
  | v :: vs => (if v ∈ seen then 1 else 0) + dup_count_go (v :: seen) vs

/-- Conflicts counted by `fitness` within one column or block group. -/
def dup_count (l : List Nat) : Nat := dup_count_go [] l

/-- Models Python `range(0, stop, step)` for `step > 0`. -/
def range_step (stop step : Nat) : List Nat :=
  (List.range ((stop + step - 1) / step)).map (fun i => i * step)

/-- The configuration of `CulturalSolverImpl.__init__`: the puzzle plus the
numeric parameters.  `elite_frac` (a Python float) is modelled as an exact
rational. -/
structure Solver where
  puzzle : Board
  pop_size : Nat
  elite_frac : ℚ
  max_iters : Nat

/-- `self.N = len(puzzle)`. -/
def Solver.N (S : Solver) : Nat := S.puzzle.length

/-- First component of `SudokuLogic.get_block_dims(N)` (block height). -/
def Solver.br_h (S : Solver) : Nat := (get_block_dims S.N).1

/-- Second component of `SudokuLogic.get_block_dims(N)` (block width). -/
def Solver.bc_w (S : Solver) : Nat := (get_block_dims S.N).2

/-- `self.fixed[r][c] = (puzzle[r][c] != 0)`, computed pointwise. -/
def Solver.fixedAt (S : Solver) (r c : Nat) : Bool := valAt S.puzzle r c != 0

/-- The missing values of one row: `list(set(range(1, N + 1)) - set(row) - {0})`.
The Python set difference is order-unspecified; the list is shuffled before
use, so the enumeration order chosen here covers the same outcomes. -/
def missing_of_row (N : Nat) (row : List Nat) : List Nat :=
  (List.range' 1 N).filter (fun v => !(row.contains v))

/-- `self.missing_map[r]`. -/
def Solver.missing_row (S : Solver) (r : Nat) : List Nat :=
  missing_of_row S.N (S.puzzle.getD r [])

/-- The cells of column `c`, in the row order scanned by the source. -/
def Solver.col_cells (S : Solver) (c : Nat) : List (Nat × Nat) :=
  (List.range S.N).map (fun r => (r, c))

/-- The cells of the block anchored at `(br, bc)`, in the row-major order
scanned by the source. -/
def Solver.block_cells (S : Solver) (br bc : Nat) : List (Nat × Nat) :=
  (List.range S.br_h).flatMap (fun i =>
    (List.range S.bc_w).map (fun j => (br + i, bc + j)))

/-- The block anchors `(br, bc)` produced by the two stride loops
`range(0, N, br_h)` and `range(0, N, bc_w)`. -/
def Solver.block_starts (S : Solver) : List (Nat × Nat) :=
  (range_step S.N S.br_h).flatMap (fun br =>
    (range_step S.N S.bc_w).map (fun bc => (br, bc)))

/-- All column groups followed by all block groups, as cell lists — the groups
scanned by both `fitness` and `get_conflicted_cells`. -/
def Solver.group_cells (S : Solver) : List (List (Nat × Nat)) :=
  (List.range S.N).map S.col_cells ++ S.block_starts.map (fun p => S.block_cells p.1 p.2)

/-- The value lists of all groups of a board. -/
def Solver.group_vals (S : Solver) (b : Board) : List (List Nat) :=
  S.group_cells.map (fun g => g.map (fun rc => valAt b rc.1 rc.2))

/-- Models `CulturalSolverImpl.fitness`: the conflict counter accumulated over
all column scans and block scans equals the sum, over the groups, of the
per-group `seen`-set conflict count. -/
def Solver.fitness (S : Solver) (b : Board) : Nat :=
  ((S.group_vals b).map dup_count).sum

/-- The value list of column `c` of a board. -/
def Solver.col_vals (S : Solver) (b : Board) (c : Nat) : List Nat :=
  (S.col_cells c).map (fun rc => valAt b rc.1 rc.2)

/-- The value list of the block anchored at `(br, bc)`. -/
def Solver.block_vals (S : Solver) (b : Board) (br bc : Nat) : List Nat :=
  (S.block_cells br bc).map (fun rc => valAt b rc.1 rc.2)

/-- The anchor of the block containing cell `(r, c)`. -/
def Solver.block_start_of (S : Solver) (r c : Nat) : Nat × Nat :=
  (r / S.br_h * S.br_h, c / S.bc_w * S.bc_w)

/-- Membership test for the conflict set of `get_conflicted_cells`: a cell is
collected exactly when it is not fixed and its value occurs more than once in
its column group or in its block group. -/
def Solver.in_conflict (S : Solver) (b : Board) (r c : Nat) : Bool :=
  !S.fixedAt r c &&
    ((1 : Nat) < (S.col_vals b c).count (valAt b r c)
      || (1 : Nat) <
        (S.block_vals b (S.block_start_of r c).1 (S.block_start_of r c).2).count (valAt b r c))

/-- All board cells in row-major order. -/
def Solver.all_cells (S : Solver) : List (Nat × Nat) :=
  (List.range S.N).flatMap (fun r => (List.range S.N).map (fun c => (r, c)))

/-- Models `CulturalSolverImpl.get_conflicted_cells`.  The source groups each
column and each block by value in a dict and collects every non-fixed cell of
every value occupying more than one cell; the resulting set is exactly the
set of cells satisfying `in_conflict`, listed here in row-major order (the
source returns `list(conflicts)` of a set, whose order is unspecified). -/
def Solver.get_conflicted_cells (S : Solver) (b : Board) : List (Nat × Nat) :=
  S.all_cells.filter (fun rc => S.in_conflict b rc.1 rc.2)

/-- `num_elite = max(2, int(self.pop_size * self.elite_frac))`; Python `int()`
truncates the product toward zero. -/
def Solver.num_elite (S : Solver) : Nat :=
  max 2 (Int.toNat ⌊(S.pop_size : ℚ) * S.elite_frac⌋)

/-- `pop.sort(key=lambda p: fits[id(p)])`: Python's stable ascending sort of
the (board, cached fitness) population. -/
def sort_by_fit (pop : List (Board × Nat)) : List (Board × Nat) :=
  pop.mergeSort (fun a b => a.2 ≤ b.2)

/-- `elites = pop[:num_elite]` after the sort. -/
def Solver.elites_of (S : Solver) (pop : List (Board × Nat)) : List (Board × Nat) :=
  (sort_by_fit pop).take S.num_elite

/-- `min(pop, key=lambda p: fits[id(p)])`: the first element of least cached
fitness.  Python raises on an empty population; the default `([], 0)` is
unreachable under the caller contract `pop_size ≥ 1`. -/
def min_by_fit (pop : List (Board × Nat)) : Board × Nat :=
  match pop with
  | [] => ([], 0)
  | p :: rest => rest.foldl (fun acc q => if q.2 < acc.2 then q else acc) p

/-- The state of `BeliefSpace`.  `global_best_fit` starts at `float('inf')`,
modelled as `⊤`. -/
structure BeliefSpace where
  N : Nat
  global_best : Option Board
  global_best_fit : WithTop Nat
  conflict_matrix : List (List Nat)
  row_conflict_scores : List Nat

/-- `BeliefSpace.__init__(N)`. -/
def BeliefSpace.make (n : Nat) : BeliefSpace :=
  ⟨n, none, ⊤, List.replicate n (List.replicate n 0), List.replicate n 0⟩

/-- `self.conflict_matrix[r][c] += 1`. -/
def bump_cell (m : List (List Nat)) (r c : Nat) : List (List Nat) :=
  m.set r ((m.getD r []).set c ((m.getD r []).getD c 0 + 1))

/-- `self.row_conflict_scores[r] += 1`. -/
def bump_row (s : List Nat) (r : Nat) : List Nat :=
  s.set r (s.getD r 0 + 1)

/-- The normative-knowledge loop of `BeliefSpace.update`: starting from the
freshly zeroed matrix and scores, count every conflicted cell of every
elite. -/
def accum_conflicts (gcc : Board → List (Nat × Nat)) (elites : List (Board × Nat))
    (start : List (List Nat) × List Nat) : List (List Nat) × List Nat :=
  elites.foldl (fun acc p =>
    (gcc p.1).foldl (fun acc2 rc => (bump_cell acc2.1 rc.1 rc.2, bump_row acc2.2 rc.1)) acc) start

/-- Models `BeliefSpace.update(elites, fitness_map, get_conflicted_cells_func)`.
The population is carried as (board, cached fitness) pairs, standing for the
identity-keyed `fitness_map` of the source. -/
def BeliefSpace.update (B : BeliefSpace) (elites : List (Board × Nat))
    (gcc : Board → List (Nat × Nat)) : BeliefSpace :=
  let be := min_by_fit elites
  let sit :=
    if (be.2 : WithTop Nat) < B.global_best_fit then
      { B with global_best := some (clone_board be.1), global_best_fit := (be.2 : WithTop Nat) }
    else B
  let ms := accum_conflicts gcc elites
      (List.replicate B.N (List.replicate B.N 0), List.replicate B.N 0)
  { sit with conflict_matrix := ms.1, row_conflict_scores := ms.2 }

/-- The roulette loop of `BeliefSpace.select_target_row`: walk the scores
accumulating a running sum and return the index of the first row whose
running sum exceeds the drawn value, or `none` when the walk falls through. -/
def roulette_walk : Nat → List Nat → Option Nat
  | _, [] => none
  | pick, s :: rest =>
      if pick < s then some 0
      else (roulette_walk (pick - s) rest).map (fun r => r + 1)

/-- Models `BeliefSpace.select_target_row`.  `pick` models the floor of the
`random.uniform(0, total)` draw (the integer cumulative sums make only the
floor observable); `fb1` and `fb2` model the two `random.randint(0, N - 1)`
fallbacks (the exploration fallback for a zero total, and the final line
reached only when the draw falls beyond every running sum). -/
def BeliefSpace.select_target_row (B : BeliefSpace) (pick fb1 fb2 : Nat) : Nat :=
  let total := B.row_conflict_scores.sum
  if total = 0 then fb1 % B.N
  else
    match roulette_walk pick B.row_conflict_scores with
    | some r => r
    | none => fb2 % B.N

/-- Fisher–Yates-style shuffle driven by the oracle stream: repeatedly pick a
remaining position.  The fuel argument starts as the list length. -/
def shuffle_go (rho : Nat → Nat) : Nat → Nat → List Nat → List Nat
  | 0, _, _ => []
  | n + 1, k, l =>
      let i := rho k % l.length
      l.getD i 0 :: shuffle_go rho n (k + 1) (l.eraseIdx i)

/-- Models `random.shuffle(missing)`: an oracle-chosen permutation of the
list, consuming one stream position per element. -/
def shuffle (rho : Nat → Nat) (k : Nat) (l : List Nat) : List Nat :=
  shuffle_go rho l.length k l

/-- The row-filling loop of `random_ind`: fixed (nonzero) cells keep their
clue, empty cells take successive values of the shuffled missing list.
`headD 0` stands for the out-of-range access Python would raise on; it is
never reached on boards whose rows have length `N` (see `fill_row_opt`). -/
def fill_row : List Nat → List Nat → List Nat
  | [], _ => []
  | v :: vs, ms =>
      if v ≠ 0 then v :: fill_row vs ms
      else ms.headD 0 :: fill_row vs ms.tail

/-- Partiality-tracking variant of `fill_row`: `none` models the `IndexError`
raised when the missing list runs out before the empty cells do. -/
def fill_row_opt : List Nat → List Nat → Option (List Nat)
  | [], _ => some []
  | v :: vs, ms =>
      if v ≠ 0 then (fill_row_opt vs ms).map (fun t => v :: t)
      else
        match ms with
        | [] => none
        | m :: ms2 => (fill_row_opt vs ms2).map (fun t => m :: t)

/-- The per-row loop of `random_ind`, threading the oracle counter. -/
def random_rows (N : Nat) (rho : Nat → Nat) : List (List Nat) → Nat → List (List Nat) × Nat
  | [], k => ([], k)
  | row :: rows, k =>
      let missing := missing_of_row N row
      let filled := fill_row row (shuffle rho k missing)
      let rest := random_rows N rho rows (k + missing.length)
      (filled :: rest.1, rest.2)

/-- Models `CulturalSolverImpl.random_ind`: clone the puzzle, then fill every
row's empty cells with its shuffled missing values.  Returns the board and
the advanced oracle counter. -/
def Solver.random_ind (S : Solver) (rho : Nat → Nat) (k : Nat) : Board × Nat :=
  random_rows S.N rho S.puzzle k

/-- Partiality-tracking variant of `random_ind` (see `fill_row_opt`). -/
def random_rows_opt (N : Nat) (rho : Nat → Nat) : List (List Nat) → Nat → Option (List (List Nat))
  | [], _ => some []
  | row :: rows, k =>
      let missing := missing_of_row N row
      match fill_row_opt row (shuffle rho k missing),
          random_rows_opt N rho rows (k + missing.length) with
      | some filled, some rest => some (filled :: rest)
      | _, _ => none

/-- `random_ind` with the `IndexError` of an exhausted missing list made
observable as `none`. -/
def Solver.random_ind_opt (S : Solver) (rho : Nat → Nat) (k : Nat) : Option Board :=
  random_rows_opt S.N rho S.puzzle k

/-- The tagged events yielded by `solve_gen`, with the payloads of the
source. -/
inductive Event where
  | init (board : Board) (fit : Nat) (iterNo : Nat) (bad : List (Nat × Nat))
  | iter (board : Board) (fit : Nat) (iterNo : Nat) (bad : List (Nat × Nat))
  | swap_try (r c1 v1 c2 v2 : Nat)
  | swap_reset (r c1 c2 : Nat)
  | done (board : Board) (fit : Nat) (iterNo : Nat) (bad : List (Nat × Nat))
  | fail (board : Board) (fit : Nat) (iterNo : Nat) (bad : List (Nat × Nat))
  deriving DecidableEq, Repr

/-- The loop state of `solve_gen`: the population with its cached fitness
values (standing for the identity-keyed `fits` dict), the best board and
fitness found so far, the belief space, and the oracle counter. -/
structure GState where
  pop : List (Board × Nat)
  best : Board
  best_fit : Nat
  belief : BeliefSpace
  ctr : Nat

/-- The simultaneous swap `row[c1], row[c2] = row[c2], row[c1]`. -/
def swap_cells (row : List Nat) (c1 c2 : Nat) : List Nat :=
  (row.set c1 (row.getD c2 0)).set c2 (row.getD c1 0)

/-- Swap two cells within row `r` of a board. -/
def swap_in_row (b : Board) (r c1 c2 : Nat) : Board :=
  b.set r (swap_cells (b.getD r []) c1 c2)

/-- The outcome of the greedy-polish section of one iteration. -/
structure PolishOut where
  evs : List Event
  pop : List (Board × Nat)
  best : Board
  best_fit : Nat
  finished : Bool
  ctr : Nat

/-- `random.choice(bad_cells)`, as an oracle index reduced modulo the list
length. -/
def choose_cell (bad : List (Nat × Nat)) (i : Nat) : Nat × Nat :=
  bad.getD (i % bad.length) (0, 0)

/-- `[c for c in range(N) if not fixed[r][c] and c != c1]`. -/
def Solver.mutable_cols_of (S : Solver) (r c1 : Nat) : List Nat :=
  (List.range S.N).filter (fun c => !S.fixedAt r c && c != c1)

/-- Models the greedy-polish section of `solve_gen` (acting on the sorted
population `pop1` whose head is `curr_best` with cached fitness `curr_fit`,
after the running best has already been updated to `best1`/`best_fit1`).
`random.choice` is modelled as an oracle index reduced modulo the list
length. -/
def Solver.polish_step (S : Solver) (rho : Nat → Nat) (pop1 : List (Board × Nat))
    (curr_best : Board) (curr_fit : Nat) (bad_cells : List (Nat × Nat))
    (best1 : Board) (best_fit1 : Nat) (it k : Nat) : PolishOut :=
  if bad_cells.length = 0 then ⟨[], pop1, best1, best_fit1, false, k⟩
  else
    let rc := choose_cell bad_cells (rho k)
    let mutable_cols := S.mutable_cols_of rc.1 rc.2
    if mutable_cols.length = 0 then ⟨[], pop1, best1, best_fit1, false, k + 1⟩
    else
      let c2 := mutable_cols.getD (rho (k + 1) % mutable_cols.length) 0
      let polished0 := clone_board curr_best
      let ev1 := Event.swap_try rc.1 rc.2 (valAt polished0 rc.1 c2) c2 (valAt polished0 rc.1 rc.2)
      let polished := swap_in_row polished0 rc.1 rc.2 c2
      let ev2 := Event.swap_reset rc.1 rc.2 c2
      let new_f := S.fitness polished
      if new_f < curr_fit then
        let pop2 := (polished, new_f) :: pop1.tail
        if new_f < best_fit1 then
          if new_f = 0 then
            ⟨[ev1, ev2, Event.done (clone_board polished) 0 it []],
              pop2, clone_board polished, 0, true, k + 2⟩
          else ⟨[ev1, ev2], pop2, clone_board polished, new_f, false, k + 2⟩
        else ⟨[ev1, ev2], pop2, best1, best_fit1, false, k + 2⟩
      else ⟨[ev1, ev2], pop1, best1, best_fit1, false, k + 2⟩

/-- The crossover of the regrowth loop: start from a copy of the
coin-chosen parent, then row-by-row overwrite with `p2`'s row on a second
coin.  List slicing (`r[:]`) is a value copy. -/
def Solver.cross_child (S : Solver) (p1 p2 : Board) (baseCoin : Bool)
    (rowCoin : Nat → Bool) : Board :=
  let base := if baseCoin then p1 else p2
  (List.range S.N).map (fun r => if rowCoin r then p2.getD r [] else base.getD r [])

/-- The mutation of the regrowth loop: if row `r` has at least two non-fixed
columns, swap the values at two distinct non-fixed columns chosen by the
oracle indices `i` and `j` (`random.sample(mutable, 2)`). -/
def Solver.mutate_child (S : Solver) (child : Board) (r i j : Nat) : Board :=
  let mutable := (List.range S.N).filter (fun c => !S.fixedAt r c)
  if 2 ≤ mutable.length then
    let i2 := i % mutable.length
    let j0 := j % (mutable.length - 1)
    let j2 := if i2 ≤ j0 then j0 + 1 else j0
    swap_in_row child r (mutable.getD i2 0) (mutable.getD j2 0)
  else child

/-- Models one crossover-plus-mutation child of the regrowth loop.  The two
parent choices, the whole-parent coin, the per-row coins, the mutation coin
(`random.random() < 0.4`, modelled as a fresh oracle value modulo 5 being
below 2) and the two `random.sample` indices each consume oracle positions. -/
def Solver.make_child (S : Solver) (rho : Nat → Nat) (elites pool : List (Board × Nat))
    (B : BeliefSpace) (k : Nat) : Board × Nat :=
  let p1 := (elites.getD (rho k % elites.length) ([], 0)).1
  let p2 := (pool.getD (rho (k + 1) % pool.length) ([], 0)).1
  let child0 := S.cross_child p1 p2 (rho (k + 2) % 2 == 0) (fun r => rho (k + 3 + r) % 2 == 0)
  let k1 := k + 3 + S.N
  if rho k1 % 5 < 2 then
    let r := B.select_target_row (rho (k1 + 1)) (rho (k1 + 2)) (rho (k1 + 3))
    (S.mutate_child child0 r (rho (k1 + 4)) (rho (k1 + 5)), k1 + 6)
  else (child0, k1 + 6)

/-- The regrowth `while len(new_pop) < pop_size` loop, producing the children
appended after the cloned elites; each child is cached with its computed
fitness. -/
def Solver.regrow (S : Solver) (rho : Nat → Nat) (elites pool : List (Board × Nat))
    (B : BeliefSpace) : Nat → Nat → List (Board × Nat) × Nat
  | k, 0 => ([], k)
  | k, n + 1 =>
      let c := S.make_child rho elites pool B k
      let rest := S.regrow rho elites pool B c.2 n
      ((c.1, S.fitness c.1) :: rest.1, rest.2)

/-- The events and successor state of one iteration of `solve_gen`. -/
structure IterOut where
  evs : List Event
  st : GState
  finished : Bool

/-- The remainder of one `solve_gen` iteration after the greedy polish: the
early `done` exit from the polish, the regrowth of the population (cloned
elites carrying the sorted head's cached fitness, then crossover/mutation
children), and the post-regrowth `done` exit. -/
def Solver.iter_tail (S : Solver) (rho : Nat → Nat) (belief1 : BeliefSpace) (ev0 : Event)
    (po : PolishOut) (it : Nat) : IterOut :=
  if po.finished then ⟨ev0 :: po.evs, ⟨po.pop, po.best, po.best_fit, belief1, po.ctr⟩, true⟩
  else
    let head_fit := (po.pop.headD ([], 0)).2
    let elites2 := (po.pop.take S.num_elite).map (fun p => (clone_board p.1, head_fit))
    let pool := po.pop.take (S.pop_size / 2)
    let ch := S.regrow rho elites2 pool belief1 po.ctr (S.pop_size - elites2.length)
    let pop3 := elites2 ++ ch.1
    if po.best_fit = 0 then
      ⟨ev0 :: po.evs ++ [Event.done po.best 0 it []],
        ⟨pop3, po.best, po.best_fit, belief1, ch.2⟩, true⟩
    else ⟨ev0 :: po.evs, ⟨pop3, po.best, po.best_fit, belief1, ch.2⟩, false⟩

/-- Models one iteration (sort, elite selection, belief-space update,
running-best update, the `iter` event, greedy polish, regrowth, and the two
`done` exits) of `solve_gen`. -/
def Solver.iter_body (S : Solver) (rho : Nat → Nat) (s : GState) (it : Nat) : IterOut :=
  let pop1 := sort_by_fit s.pop
  let elites := S.elites_of s.pop
  let belief1 := s.belief.update elites S.get_conflicted_cells
  let curr_best := (pop1.headD ([], 0)).1
  let curr_fit := (pop1.headD ([], 0)).2
  let bad_cells := S.get_conflicted_cells curr_best
  let best1 := if curr_fit < s.best_fit then clone_board curr_best else s.best
  let best_fit1 := if curr_fit < s.best_fit then curr_fit else s.best_fit
  let ev0 := Event.iter (clone_board curr_best) best_fit1 it bad_cells
  let po := S.polish_step rho pop1 curr_best curr_fit bad_cells best1 best_fit1 it s.ctr
  S.iter_tail rho belief1 ev0 po it

/-- The initial-population loop of `solve_gen`, caching each individual's
fitness. -/
def Solver.pop_init (S : Solver) (rho : Nat → Nat) : Nat → Nat → List (Board × Nat) × Nat
  | k, 0 => ([], k)
  | k, n + 1 =>
      let bi := S.random_ind rho k
      let rest := S.pop_init rho bi.2 n
      ((bi.1, S.fitness bi.1) :: rest.1, rest.2)

/-- The `for it in range(1, max_iters + 1)` loop of `solve_gen`, followed by
the final `fail` event (which carries `self.max_iters` as its iteration). -/
def Solver.solve_loop (S : Solver) (rho : Nat → Nat) : List Nat → GState → List Event
  | [], s => [Event.fail s.best s.best_fit S.max_iters (S.get_conflicted_cells s.best)]
  | it :: rest, s =>
      let r := S.iter_body rho s it
      if r.finished then r.evs else r.evs ++ S.solve_loop rho rest r.st

/-- Models `CulturalSolverImpl.solve_gen` as the full list of yielded
events. -/
def Solver.solve_gen (S : Solver) (rho : Nat → Nat) : List Event :=
  let pi0 := S.pop_init rho 0 S.pop_size
  let bp := min_by_fit pi0.1
  Event.init (clone_board bp.1) bp.2 0 [] ::
    S.solve_loop rho (List.range' 1 S.max_iters) ⟨pi0.1, bp.1, bp.2, BeliefSpace.make S.N, pi0.2⟩

/-- The best-known fitness carried by an `iter`, `done` or `fail` event. -/
def carried_fit : Event → Option Nat
  | Event.iter _ f _ _ => some f
  | Event.done _ f _ _ => some f
  | Event.fail _ f _ _ => some f
  | _ => none

/-- The boards carried by an event. -/
def event_boards : Event → List Board
  | Event.init b _ _ _ => [b]
  | Event.iter b _ _ _ => [b]
  | Event.done b _ _ _ => [b]
  | Event.fail b _ _ _ => [b]
  | _ => []

/-- Row-completeness with respect to the solver's fixed mask: an `N`-row
board whose every row is a permutation of `[1, N]` and whose fixed cells
carry the puzzle's clue values. -/
def Solver.row_complete (S : Solver) (b : Board) : Prop :=
  b.length = S.N ∧ ∀ r, r < S.N →
    (b.getD r []).Perm (List.range' 1 S.N) ∧
      ∀ c, c < S.N → S.fixedAt r c = true → valAt b r c = valAt S.puzzle r c

/-- The loop invariant of `solve_gen`: a nonempty population of row-complete
boards and a row-complete running best. -/
def state_ok (S : Solver) (s : GState) : Prop :=
  s.pop ≠ [] ∧ (∀ p ∈ s.pop, S.row_complete p.1) ∧ S.row_complete s.best

/-- A well-formed puzzle: square, with pairwise-distinct nonzero in-range
clues in every row. -/
def Solver.wf (S : Solver) : Prop :=
  ∀ row ∈ S.puzzle, row.length = S.N ∧
    (row.filter (fun v => v != 0)).Nodup ∧ ∀ v ∈ row, v ≤ S.N

/-- Clue consistency: no column or block of the puzzle repeats a nonzero
clue. -/
def Solver.clues_ok (S : Solver) : Prop :=
  ∀ g ∈ S.group_vals S.puzzle, (g.filter (fun v => v != 0)).Nodup

/-- The fitness semantics asserted by the specification text: for each
distinct value occurring `k > 1` times in a group, all `k` occurrences are
counted. -/
def claim_group_conflicts (g : List Nat) : Nat :=
  ((g.dedup.filter (fun v => 1 < g.count v)).map (fun v => g.count v)).sum

/-- The specification's claimed fitness (see `claim_group_conflicts`). -/
def Solver.claim_fitness (S : Solver) (b : Board) : Nat :=
  ((S.group_vals b).map claim_group_conflicts).sum

/-- The per-group conflict count the source actually computes: each distinct
value contributes its occurrences beyond the first. -/
def code_group_conflicts (g : List Nat) : Nat :=
  (g.dedup.map (fun v => g.count v - 1)).sum

/-- The elite-count formula asserted by the specification text, with
`round` in place of the source's `int` truncation. -/
def Solver.claim_num_elite (S : Solver) : Nat :=
  max 2 (Int.toNat (round ((S.pop_size : ℚ) * S.elite_frac)))

instance (S : Solver) (b : Board) : Decidable (S.row_complete b) := by
  unfold Solver.row_complete; infer_instance

instance (S : Solver) : Decidable S.wf := by
  unfold Solver.wf; infer_instance

instance (S : Solver) : Decidable S.clues_ok := by
  unfold Solver.clues_ok; infer_instance

/-- A fully-clued 4×4 board whose identical rows conflict in every column and
block while every cell is fixed. -/
def all_fixed_board : Board := [[1, 2, 3, 4], [1, 2, 3, 4], [1, 2, 3, 4], [1, 2, 3, 4]]

/-- Solver over `all_fixed_board` taken as the puzzle (every cell a clue). -/
def all_fixed_solver : Solver := ⟨all_fixed_board, 10, 1 / 10, 50⟩

/-- Solver exhibiting `int` vs `round`: `10 * (7/20) = 3.5`. -/
def frac_solver : Solver := ⟨[[1]], 10, 7 / 20, 0⟩

/-- A puzzle whose first row repeats the clue `1`. -/
def dup_clue_solver : Solver := ⟨[[1, 1, 0, 0], [0, 0, 0, 0], [0, 0, 0, 0], [0, 0, 0, 0]], 3, 1 / 10, 2⟩

/-- A trivial solved 1×1 puzzle with a zero iteration budget. -/
def tiny_solver : Solver := ⟨[[1]], 1, 1 / 10, 0⟩

/-- A well-formed 4×4 puzzle with consistent clues and empty cells. -/
def open_solver : Solver := ⟨[[1, 0, 0, 0], [0, 0, 1, 2], [0, 1, 0, 0], [0, 0, 0, 0]], 3, 1 / 10, 2⟩

/-- A solved board completing `open_solver`'s puzzle. -/
def open_solution : Board := [[1, 2, 3, 4], [3, 4, 1, 2], [2, 1, 4, 3], [4, 3, 2, 1]]

/-- The constant-zero oracle stream. -/
def rho0 : Nat → Nat := fun _ => 0

/-- A belief-space state with conflict mass on rows 1 and 2. -/
def example_belief : BeliefSpace := ⟨3, none, ⊤, [], [0, 2, 1]⟩

theorem clone_board_eq (b : Board) : clone_board b = b := by
  simp [clone_board]

/-- C10: re-asserting the value already present at an in-range cell is
reported invalid, because the row scan of `valid_in_cell` includes the
queried cell itself, while `val = 0` is always accepted. -/
theorem valid_in_cell_self_occluding :
    (∀ (board : Board) (r c : Nat), valid_in_cell board r c 0 = true) ∧
    ∀ (board : Board) (r c val : Nat), val ≠ 0 → c < board.length →
      valAt board r c = val → valid_in_cell board r c val = false := by
  constructor
  · intro board r c
    simp [valid_in_cell]
  · intro board r c val hv hc hval
    have hrow : (List.range board.length).any (fun j => valAt board r j == val) = true := by
      rw [List.any_eq_true]
      exact ⟨c, List.mem_range.mpr hc, by simp [hval]⟩
    unfold valid_in_cell
    simp only [if_neg hv, hrow, if_pos]

theorem valid_in_cell_self_occluding_witness :
    ((2 : Nat) ≠ 0 ∧ 1 < ([[1, 2], [2, 1]] : Board).length ∧
        valAt [[1, 2], [2, 1]] 0 1 = 2) ∧
      valid_in_cell [[1, 2], [2, 1]] 0 1 2 = false :=
  ⟨by decide,
    valid_in_cell_self_occluding.2 [[1, 2], [2, 1]] 0 1 2 (by decide) (by decide) (by decide)⟩

theorem min_by_fit_fold_mem (l : List (Board × Nat)) :
    ∀ p : Board × Nat,
      (l.foldl (fun acc q => if q.2 < acc.2 then q else acc) p) = p ∨
        (l.foldl (fun acc q => if q.2 < acc.2 then q else acc) p) ∈ l := by
  induction l with
  | nil => intro p; left; rfl
  | cons a t ih =>
      intro p
      simp only [List.foldl_cons]
      by_cases hc : a.2 < p.2
      · rw [if_pos hc]
        rcases ih a with h | h
        · rw [h]; exact Or.inr (List.mem_cons_self a t)
        · exact Or.inr (List.mem_cons_of_mem a h)
      · rw [if_neg hc]
        rcases ih p with h | h
        · exact Or.inl h
        · exact Or.inr (List.mem_cons_of_mem a h)

theorem min_by_fit_fold_le (l : List (Board × Nat)) :
    ∀ p : Board × Nat,
      (l.foldl (fun acc q => if q.2 < acc.2 then q else acc) p).2 ≤ p.2 ∧
        ∀ q ∈ l, (l.foldl (fun acc q => if q.2 < acc.2 then q else acc) p).2 ≤ q.2 := by
  induction l with
  | nil =>
      intro p
      refine ⟨Nat.le_refl _, ?_⟩
      intro q hq
      simp at hq
  | cons a t ih =>
      intro p
      simp only [List.foldl_cons]
      by_cases hc : a.2 < p.2
      · rw [if_pos hc]
        rcases ih a with ⟨h1, h2⟩
        refine ⟨by omega, ?_⟩
        intro q hq
        rcases List.mem_cons.mp hq with rfl | hq
        · exact h1
        · exact h2 q hq
      · rw [if_neg hc]
        rcases ih p with ⟨h1, h2⟩
        refine ⟨h1, ?_⟩
        intro q hq
        rcases List.mem_cons.mp hq with rfl | hq
        · omega
        · exact h2 q hq

theorem min_by_fit_mem {l : List (Board × Nat)} (h : l ≠ []) :
    min_by_fit l ∈ l ∧ ∀ q ∈ l, (min_by_fit l).2 ≤ q.2 := by
  match l, h with
  | p :: t, _ =>
      have he : min_by_fit (p :: t) =
          t.foldl (fun acc q => if q.2 < acc.2 then q else acc) p := rfl
      rw [he]
      constructor
      · rcases min_by_fit_fold_mem t p with h2 | h2
        · rw [h2]; exact List.mem_cons_self p t
        · exact List.mem_cons_of_mem p h2
      · intro q hq
        rcases List.mem_cons.mp hq with rfl | hq
        · exact (min_by_fit_fold_le t q).1
        · exact (min_by_fit_fold_le t p).2 q hq

theorem update_global_best_fit (B : BeliefSpace) (es : List (Board × Nat))
    (gcc : Board → List (Nat × Nat)) :
    (B.update es gcc).global_best_fit =
      (if ((min_by_fit es).2 : WithTop Nat) < B.global_best_fit then
        ((min_by_fit es).2 : WithTop Nat) else B.global_best_fit) ∧
    (B.update es gcc).global_best =
      (if ((min_by_fit es).2 : WithTop Nat) < B.global_best_fit then
        some (clone_board (min_by_fit es).1) else B.global_best) := by
  by_cases hc : ((min_by_fit es).2 : WithTop Nat) < B.global_best_fit
  · simp [BeliefSpace.update, if_pos hc]
  · simp [BeliefSpace.update, if_neg hc]

/-- C4: across any sequence of `BeliefSpace.update` calls the global best
fitness never increases, and it is replaced — together with a cloned copy of
the minimal-fitness elite — exactly when the minimal elite fitness is
strictly below the current global best fitness. -/
theorem global_best_ratchet (B : BeliefSpace) (gcc : Board → List (Nat × Nat))
    (batches : List (List (Board × Nat))) (hne : ∀ es ∈ batches, es ≠ []) :
    ((batches.foldl (fun b es => b.update es gcc) B).global_best_fit ≤ B.global_best_fit) ∧
    ∀ es, es ≠ [] →
      (min_by_fit es ∈ es ∧ ∀ q ∈ es, (min_by_fit es).2 ≤ q.2) ∧
      (((min_by_fit es).2 : WithTop Nat) < B.global_best_fit →
        (B.update es gcc).global_best_fit = ((min_by_fit es).2 : WithTop Nat) ∧
        (B.update es gcc).global_best = some (clone_board (min_by_fit es).1)) ∧
      (¬ ((min_by_fit es).2 : WithTop Nat) < B.global_best_fit →
        (B.update es gcc).global_best_fit = B.global_best_fit ∧
        (B.update es gcc).global_best = B.global_best) := by
  constructor
  · clear hne
    induction batches generalizing B with
    | nil => exact le_refl _
    | cons es t ih =>
        simp only [List.foldl_cons]
        refine le_trans (ih (B.update es gcc)) ?_
        rcases update_global_best_fit B es gcc with ⟨h1, _⟩
        rw [h1]
        by_cases hc : ((min_by_fit es).2 : WithTop Nat) < B.global_best_fit
        · simp only [if_pos hc]; exact le_of_lt hc
        · simp only [if_neg hc]; exact le_refl _
  · intro es hes
    refine ⟨min_by_fit_mem hes, ?_, ?_⟩
    · intro hc
      rcases update_global_best_fit B es gcc with ⟨h1, h2⟩
      rw [h1, h2, if_pos hc, if_pos hc]
      exact ⟨rfl, rfl⟩
    · intro hc
      rcases update_global_best_fit B es gcc with ⟨h1, h2⟩
      rw [h1, h2, if_neg hc, if_neg hc]
      exact ⟨rfl, rfl⟩

theorem global_best_ratchet_witness :
    (∀ es ∈ [[(([[1]] : Board), 3)]], es ≠ []) ∧
      (([[(([[1]] : Board), 3)]].foldl
          (fun b es => b.update es (fun _ => [])) (BeliefSpace.make 1)).global_best_fit ≤
        (BeliefSpace.make 1).global_best_fit) :=
  ⟨by decide, (global_best_ratchet (BeliefSpace.make 1) (fun _ => [])
      [[(([[1]] : Board), 3)]] (by decide)).1⟩

theorem roulette_walk_spec :
    ∀ (scores : List Nat) (pick : Nat), pick < scores.sum →
      ∃ r, roulette_walk pick scores = some r ∧ r < scores.length ∧
        pick < (scores.take (r + 1)).sum ∧
        (∀ r2, r2 < r → (scores.take (r2 + 1)).sum ≤ pick) ∧
        0 < scores.getD r 0 := by
  intro scores
  induction scores with
  | nil => intro pick h; simp at h
  | cons s rest ih =>
      intro pick h
      by_cases hs : pick < s
      · refine ⟨0, ?_, by simp, ?_, ?_, ?_⟩
        · simp [roulette_walk, hs]
        · simpa using hs
        · intro r2 hr2; omega
        · simp only [List.getD_cons_zero]; omega
      · have hs2 : s ≤ pick := Nat.le_of_not_lt hs
        have hrec : pick - s < rest.sum := by
          simp only [List.sum_cons] at h; omega
        rcases ih (pick - s) hrec with ⟨r, hw, hlen, hlt, hle, hpos⟩
        refine ⟨r + 1, ?_, by simpa using hlen, ?_, ?_, by simpa using hpos⟩
        · simp [roulette_walk, hs, hw]
        · simp only [List.take_succ_cons, List.sum_cons]
          omega
        · intro r2 hr2
          match r2 with
          | 0 => simpa using hs2
          | r3 + 1 =>
              have := hle r3 (by omega)
              simp only [List.take_succ_cons, List.sum_cons]
              omega

/-- C8: with a zero total conflict score `select_target_row` returns the
uniform fallback draw (reduced into `[0, N)`), and otherwise, for every draw
strictly below the total, it returns the first row whose running cumulative
score sum exceeds the draw — in particular a row with a positive conflict
score. -/
theorem select_target_row_spec (B : BeliefSpace) (pick fb1 fb2 : Nat) :
    (B.row_conflict_scores.sum = 0 →
      B.select_target_row pick fb1 fb2 = fb1 % B.N ∧
        (0 < B.N → B.select_target_row pick fb1 fb2 < B.N)) ∧
    (pick < B.row_conflict_scores.sum →
      ∃ r, B.select_target_row pick fb1 fb2 = r ∧ r < B.row_conflict_scores.length ∧
        pick < (B.row_conflict_scores.take (r + 1)).sum ∧
        (∀ r2, r2 < r → (B.row_conflict_scores.take (r2 + 1)).sum ≤ pick) ∧
        0 < B.row_conflict_scores.getD r 0) := by
  constructor
  · intro h0
    unfold BeliefSpace.select_target_row
    simp only [h0, if_pos rfl]
    exact ⟨rfl, fun hN => Nat.mod_lt _ hN⟩
  · intro hlt
    have hne : B.row_conflict_scores.sum ≠ 0 := by omega
    rcases roulette_walk_spec B.row_conflict_scores pick hlt with ⟨r, hw, hlen, h1, h2, h3⟩
    refine ⟨r, ?_, hlen, h1, h2, h3⟩
    unfold BeliefSpace.select_target_row
    simp only [if_neg hne, hw]

theorem filter_not_mem_cons_length (seen : List Nat) (v : Nat) :
    ∀ (l : List Nat), l.Nodup → v ∈ l → v ∉ seen →
      (l.filter (fun x => decide (x ∉ seen))).length =
        (l.filter (fun x => decide (x ∉ v :: seen))).length + 1 := by
  intro l
  induction l with
  | nil => intro _ hv; cases hv
  | cons a t ih =>
      intro hnd hv hvs
      rcases List.mem_cons.mp hv with rfl | hvt
      · have hvt2 : v ∉ t := (List.nodup_cons.mp hnd).1
        have hft : t.filter (fun x => decide (x ∉ seen)) =
            t.filter (fun x => decide (x ∉ v :: seen)) := by
          apply List.filter_congr
          intro x hx
          have hxv : x ≠ v := fun hxe => hvt2 (hxe ▸ hx)
          apply decide_eq_decide.mpr
          constructor
          · intro hxs hmem
            rcases List.mem_cons.mp hmem with h1 | h1
            · exact hxv h1
            · exact hxs h1
          · intro hxs hmem
            exact hxs (List.mem_cons_of_mem v hmem)
        rw [List.filter_cons, List.filter_cons,
          if_pos (decide_eq_true hvs), if_neg (by simp), hft]
        simp
      · have hna : a ≠ v := by
          intro hae
          exact (List.nodup_cons.mp hnd).1 (hae ▸ hvt)
        have ih2 := ih (List.nodup_cons.mp hnd).2 hvt hvs
        rw [List.filter_cons, List.filter_cons]
        by_cases ha : a ∈ seen
        · have hc1 : ¬ (decide (a ∉ seen) = true) := by
            simp only [decide_eq_true_eq]
            intro hx; exact hx ha
          have hc2 : ¬ (decide (a ∉ v :: seen) = true) := by
            simp only [decide_eq_true_eq]
            intro hx; exact hx (List.mem_cons_of_mem v ha)
          rw [if_neg hc1, if_neg hc2]
          exact ih2
        · have hc1 : a ∉ v :: seen := by
            intro hmem
            rcases List.mem_cons.mp hmem with h1 | h1
            · exact hna h1
            · exact ha h1
          rw [if_pos (decide_eq_true ha), if_pos (decide_eq_true hc1)]
          simp only [List.length_cons]
          omega

theorem dup_count_go_add (l : List Nat) :
    ∀ seen : List Nat,
      dup_count_go seen l + (l.dedup.filter (fun x => decide (x ∉ seen))).length = l.length := by
  induction l with
  | nil => intro seen; simp [dup_count_go]
  | cons v vs ih =>
      intro seen
      have key : (if v ∈ seen then 1 else 0) +
          ((v :: vs).dedup.filter (fun x => decide (x ∉ seen))).length =
          1 + (vs.dedup.filter (fun x => decide (x ∉ v :: seen))).length := by
        by_cases hs : v ∈ seen
        · rw [if_pos hs]
          have hft : vs.dedup.filter (fun x => decide (x ∉ seen)) =
              vs.dedup.filter (fun x => decide (x ∉ v :: seen)) := by
            apply List.filter_congr
            intro x _
            apply decide_eq_decide.mpr
            constructor
            · intro hxs hmem
              rcases List.mem_cons.mp hmem with h1 | h1
              · exact hxs (h1 ▸ hs)
              · exact hxs h1
            · intro hxs hmem
              exact hxs (List.mem_cons_of_mem v hmem)
          by_cases hv : v ∈ vs
          · rw [List.dedup_cons_of_mem hv, hft]
          · rw [List.dedup_cons_of_not_mem hv, List.filter_cons]
            have hc1 : ¬ (decide (v ∉ seen) = true) := by
              simp only [decide_eq_true_eq]
              intro hx; exact hx hs
            rw [if_neg hc1, hft]
        · rw [if_neg hs]
          by_cases hv : v ∈ vs
          · rw [List.dedup_cons_of_mem hv]
            have := filter_not_mem_cons_length seen v vs.dedup (List.nodup_dedup vs)
              (List.mem_dedup.mpr hv) hs
            omega
          · rw [List.dedup_cons_of_not_mem hv]
            have hft : vs.dedup.filter (fun x => decide (x ∉ seen)) =
                vs.dedup.filter (fun x => decide (x ∉ v :: seen)) := by
              apply List.filter_congr
              intro x hx
              have hxv : x ≠ v := fun hxe => hv (List.mem_dedup.mp (hxe ▸ hx))
              apply decide_eq_decide.mpr
              constructor
              · intro hxs hmem
                rcases List.mem_cons.mp hmem with h1 | h1
                · exact hxv h1
                · exact hxs h1
              · intro hxs hmem
                exact hxs (List.mem_cons_of_mem v hmem)
            rw [List.filter_cons, if_pos (decide_eq_true hs), hft]
            simp only [List.length_cons]
            omega
      have ihv := ih (v :: seen)
      simp only [dup_count_go, List.length_cons]
      omega

theorem dup_count_add_dedup (l : List Nat) : dup_count l + l.dedup.length = l.length := by
  have h := dup_count_go_add l []
  simpa [dup_count] using h

theorem dup_count_eq_zero_iff (l : List Nat) : dup_count l = 0 ↔ l.Nodup := by
  constructor
  · intro h
    have h2 := dup_count_add_dedup l
    have h3 : l.dedup.length = l.length := by omega
    have h4 : l.dedup = l := (List.dedup_sublist l).eq_of_length h3
    rw [← h4]
    exact List.nodup_dedup l
  · intro h
    have h2 := dup_count_add_dedup l
    rw [List.dedup_eq_self.mpr h] at h2
    omega

theorem sum_map_pred_sub_one (f : Nat → Nat) :
    ∀ L : List Nat, (∀ x ∈ L, 1 ≤ f x) →
      (L.map (fun x => f x - 1)).sum + L.length = (L.map f).sum := by
  intro L
  induction L with
  | nil => intro _; simp
  | cons a t ih =>
      intro h
      have ha := h a (List.mem_cons_self a t)
      have ht := ih (fun x hx => h x (List.mem_cons_of_mem a hx))
      simp only [List.map_cons, List.sum_cons, List.length_cons]
      omega

theorem dup_count_eq_code_group (l : List Nat) : dup_count l = code_group_conflicts l := by
  have h1 := dup_count_add_dedup l
  have h2 : (l.dedup.map (fun x => l.count x - 1)).sum + l.dedup.length =
      (l.dedup.map fun x => l.count x).sum :=
    sum_map_pred_sub_one (fun v => l.count v) l.dedup
      (fun x hx => List.count_pos_iff.mpr (List.mem_dedup.mp hx))
  have h3 : (l.dedup.map fun x => l.count x).sum = l.length :=
    List.sum_map_count_dedup_eq_length l
  unfold code_group_conflicts
  omega

/-- C2 counterexample: on the all-fixed conflicting board, the fitness the
source computes differs from the specification's count-all-k-occurrences
semantics (20 versus 32). -/
theorem fitness_claim_counterexample :
    all_fixed_solver.fitness all_fixed_board ≠ all_fixed_solver.claim_fitness all_fixed_board := by
  decide

/-- C2 amended: for every board, `fitness` equals the sum over all columns
and blocks of the occurrences beyond the first of each duplicated value —
each value occurring `k > 1` times in a group contributes `k - 1`, not
`k`. -/
theorem fitness_counts_excess_occurrences (S : Solver) (b : Board) :
    S.fitness b = ((S.group_vals b).map code_group_conflicts).sum := by
  unfold Solver.fitness
  rw [funext dup_count_eq_code_group]

/-- C7 counterexample: with `pop_size = 10` and `elite_frac = 7/20` the
product is `3.5`; the source truncates to 3 while the claimed `round` gives
4. -/
theorem num_elite_round_counterexample :
    frac_solver.num_elite ≠ frac_solver.claim_num_elite := by
  have h1 : frac_solver.num_elite = 3 := by
    unfold Solver.num_elite frac_solver
    norm_num [Int.floor_eq_iff]
    rfl
  have h2 : frac_solver.claim_num_elite = 4 := by
    unfold Solver.claim_num_elite frac_solver
    norm_num [round_eq, Int.floor_eq_iff]
    rfl
  omega

/-- C7 amended: `num_elite = max(2, int(pop_size * elite_frac))` with `int`
truncation (not `round`), and the selected elites are a least-fitness prefix
of the stably sorted population: together with the dropped suffix they form a
permutation of the population, their length is `num_elite` (capped by the
population size), and every elite's cached fitness is at most every dropped
individual's. -/
theorem num_elite_and_elites_spec (S : Solver) (pop : List (Board × Nat)) :
    S.num_elite = max 2 (Int.toNat ⌊(S.pop_size : ℚ) * S.elite_frac⌋) ∧
    (S.elites_of pop ++ (sort_by_fit pop).drop S.num_elite).Perm pop ∧
    (S.elites_of pop).length = min S.num_elite pop.length ∧
    ∀ p ∈ S.elites_of pop, ∀ q ∈ (sort_by_fit pop).drop S.num_elite, p.2 ≤ q.2 := by
  refine ⟨rfl, ?_, ?_, ?_⟩
  · unfold Solver.elites_of
    rw [List.take_append_drop]
    exact List.mergeSort_perm pop _
  · unfold Solver.elites_of
    rw [List.length_take]
    have hl : (sort_by_fit pop).length = pop.length := List.length_mergeSort pop
    rw [hl]
  · have hs : (sort_by_fit pop).Pairwise (fun a b : Board × Nat => a.2 ≤ b.2) := by
      have h := @List.sorted_mergeSort (Board × Nat)
        (fun a b : Board × Nat => decide (a.2 ≤ b.2))
        (by intro a b c h1 h2; simp only [decide_eq_true_eq] at h1 h2 ⊢; omega)
        (by intro a b; simp only [Bool.or_eq_true, decide_eq_true_eq]; omega) pop
      exact h.imp (by intro a b hab; simpa using hab)
    rw [← List.take_append_drop S.num_elite (sort_by_fit pop)] at hs
    have := (List.pairwise_append.mp hs).2.2
    intro p hp q hq
    exact this p hp q hq

theorem contains_iff_mem (l : List Nat) (a : Nat) : l.contains a = true ↔ a ∈ l := by
  show l.elem a = true ↔ a ∈ l
  rw [List.elem_iff]

theorem shuffle_go_perm (rho : Nat → Nat) :
    ∀ (n k : Nat) (l : List Nat), l.length = n → (shuffle_go rho n k l).Perm l := by
  intro n
  induction n with
  | zero =>
      intro k l hl
      have : l = [] := List.length_eq_zero.mp hl
      subst this
      exact List.Perm.refl _
  | succ m ih =>
      intro k l hl
      have hlen : 0 < l.length := by omega
      have hi : rho k % l.length < l.length := Nat.mod_lt _ hlen
      have hel : (l.eraseIdx (rho k % l.length)).length = m := by
        rw [List.length_eraseIdx_of_lt hi]; omega
      have ih2 := ih (k + 1) _ hel
      have hgd : l.getD (rho k % l.length) 0 = l[rho k % l.length] :=
        List.getD_eq_getElem l 0 hi
      have h1 : (l.erase l[rho k % l.length]).Perm (l.eraseIdx (rho k % l.length)) :=
        List.erase_getElem hi
      have h2 : l.Perm (l[rho k % l.length] :: l.erase l[rho k % l.length]) :=
        List.perm_cons_erase (List.getElem_mem hi)
      show (l.getD (rho k % l.length) 0 :: shuffle_go rho m (k + 1)
        (l.eraseIdx (rho k % l.length))).Perm l
      rw [hgd]
      exact ((ih2.cons _).trans ((h1.symm.cons _).trans h2.symm))

theorem shuffle_perm (rho : Nat → Nat) (k : Nat) (l : List Nat) :
    (shuffle rho k l).Perm l :=
  shuffle_go_perm rho l.length k l rfl

theorem shuffle_length (rho : Nat → Nat) (k : Nat) (l : List Nat) :
    (shuffle rho k l).length = l.length :=
  (shuffle_perm rho k l).length_eq

theorem fill_row_opt_total :
    ∀ (row ms : List Nat), row.count 0 ≤ ms.length → ∃ t, fill_row_opt row ms = some t := by
  intro row
  induction row with
  | nil => intro ms _; exact ⟨[], rfl⟩
  | cons v vs ih =>
      intro ms h
      by_cases hv : v = 0
      · subst hv
        have hc : vs.count 0 + 1 ≤ ms.length := by
          have := List.count_cons_self 0 vs
          omega
        match ms with
        | m :: ms2 =>
            have hc2 : vs.count 0 ≤ ms2.length := by
              simp only [List.length_cons] at hc; omega
            rcases ih ms2 hc2 with ⟨t, ht⟩
            refine ⟨m :: t, ?_⟩
            simp [fill_row_opt, ht]
      · have hc : vs.count 0 ≤ ms.length := by
          have := List.count_cons_of_ne (Ne.symm hv) vs
          omega
        rcases ih ms hc with ⟨t, ht⟩
        refine ⟨v :: t, ?_⟩
        simp [fill_row_opt, hv, ht]

theorem in_row_filter_perm (N : Nat) (row : List Nat)
    (hnd : (row.filter (fun v => v != 0)).Nodup) (hle : ∀ v ∈ row, v ≤ N) :
    ((List.range' 1 N).filter (fun v => row.contains v)).Perm
      (row.filter (fun v => v != 0)) := by
  have hnd1 : ((List.range' 1 N).filter (fun v => row.contains v)).Nodup :=
    (List.nodup_range' 1 N).filter _
  rw [List.perm_ext_iff_of_nodup hnd1 hnd]
  intro a
  simp only [List.mem_filter, List.mem_range'_1, contains_iff_mem, bne_iff_ne]
  constructor
  · rintro ⟨⟨h1, _⟩, h3⟩
    exact ⟨h3, by omega⟩
  · rintro ⟨h1, h2⟩
    exact ⟨⟨by omega, by have := hle a h1; omega⟩, h1⟩

theorem count_filter_split (row : List Nat) :
    row.count 0 + (row.filter (fun v => v != 0)).length = row.length := by
  have hp := (List.filter_append_perm (fun v : Nat => v == 0) row).length_eq
  rw [List.length_append] at hp
  have hc : (row.filter (fun v : Nat => v == 0)).length = row.count 0 := by
    rw [List.filter_beq row 0, List.length_replicate]
  have he : row.filter (fun v : Nat => !(v == 0)) = row.filter (fun v => v != 0) := rfl
  rw [hc, he] at hp
  omega

theorem missing_length_split (N : Nat) (row : List Nat) :
    ((List.range' 1 N).filter (fun v => row.contains v)).length +
      (missing_of_row N row).length = N := by
  have hp := (List.filter_append_perm (fun v : Nat => row.contains v) (List.range' 1 N)).length_eq
  rw [List.length_append, List.length_range'] at hp
  have he : (List.range' 1 N).filter (fun v => !(row.contains v)) = missing_of_row N row := rfl
  rw [he] at hp
  exact hp

theorem count_zero_le_missing_length (N : Nat) (row : List Nat) (hlen : row.length = N) :
    row.count 0 ≤ (missing_of_row N row).length := by
  have h1 := missing_length_split N row
  have h2 := count_filter_split row
  have h3 : ((List.range' 1 N).filter (fun v => row.contains v)).length ≤
      (row.filter (fun v => v != 0)).length := by
    apply List.Subperm.length_le
    apply List.Nodup.subperm ((List.nodup_range' 1 N).filter _)
    intro a ha
    rcases List.mem_filter.mp ha with ⟨h4, h5⟩
    rcases List.mem_range'_1.mp h4 with ⟨h6, _⟩
    refine List.mem_filter.mpr ⟨(contains_iff_mem row a).mp h5, ?_⟩
    exact bne_iff_ne.mpr (by omega)
  omega

theorem missing_length_eq (N : Nat) (row : List Nat) (hlen : row.length = N)
    (hnd : (row.filter (fun v => v != 0)).Nodup) (hle : ∀ v ∈ row, v ≤ N) :
    (missing_of_row N row).length = row.count 0 := by
  have h1 := missing_length_split N row
  have h2 := count_filter_split row
  have h3 := (in_row_filter_perm N row hnd hle).length_eq
  omega

theorem random_rows_opt_total (N : Nat) (rho : Nat → Nat) :
    ∀ (rows : List (List Nat)) (k : Nat), (∀ row ∈ rows, row.length = N) →
      ∃ bs, random_rows_opt N rho rows k = some bs := by
  intro rows
  induction rows with
  | nil => intro k _; exact ⟨[], rfl⟩
  | cons row rest ih =>
      intro k h
      have h1 : row.count 0 ≤ (shuffle rho k (missing_of_row N row)).length := by
        rw [shuffle_length]
        exact count_zero_le_missing_length N row (h row (List.mem_cons_self row rest))
      rcases fill_row_opt_total row _ h1 with ⟨t, ht⟩
      rcases ih (k + (missing_of_row N row).length)
        (fun r hr => h r (List.mem_cons_of_mem row hr)) with ⟨bs, hbs⟩
      refine ⟨t :: bs, ?_⟩
      simp only [random_rows_opt]
      rw [ht, hbs]

/-- C9 counterexample: the first row of this puzzle repeats the nonzero
clue 1, yet `random_ind` completes without any out-of-range access — a
duplicated clue makes the missing list longer than the empty-cell count, not
shorter, so no error is raised. -/
theorem random_ind_duplicate_total_counterexample :
    ¬ ((dup_clue_solver.puzzle.getD 0 []).filter (fun v => v != 0)).Nodup ∧
      (dup_clue_solver.random_ind_opt rho0 0).isSome = true := by
  decide

/-- C9 amended: on a well-formed puzzle each missing list has exactly as many
entries as the row's empty cells, and on any square puzzle — duplicated
nonzero clues included — every list index accessed by `random_ind` stays in
range and `random_ind` is total. -/
theorem random_ind_totality (S : Solver) (rho : Nat → Nat) (k : Nat)
    (hsq : ∀ row ∈ S.puzzle, row.length = S.N) :
    (S.wf → ∀ r, r < S.N → (S.missing_row r).length = (S.puzzle.getD r []).count 0) ∧
      ∃ b, S.random_ind_opt rho k = some b := by
  constructor
  · intro hwf r hr
    have hrow : S.puzzle.getD r [] ∈ S.puzzle := by
      have hg : S.puzzle.getD r [] = S.puzzle.get ⟨r, hr⟩ := List.getD_eq_getElem S.puzzle [] hr
      rw [hg]
      exact List.get_mem S.puzzle r hr
    rcases hwf _ hrow with ⟨h1, h2, h3⟩
    exact missing_length_eq S.N _ h1 h2 h3
  · exact random_rows_opt_total S.N rho S.puzzle k hsq

theorem random_ind_totality_witness :
    (∀ row ∈ open_solver.puzzle, row.length = open_solver.N) ∧
      ((open_solver.wf → ∀ r, r < open_solver.N →
          (open_solver.missing_row r).length = (open_solver.puzzle.getD r []).count 0) ∧
        ∃ b, open_solver.random_ind_opt rho0 0 = some b) :=
  ⟨by decide, random_ind_totality open_solver rho0 0 (by decide)⟩

/-- C6: with `max_iters = 0` the engine emits exactly two events, an `init`
followed by a `fail` carrying iteration 0 and the same board content and
fitness as the `init`. -/
theorem zero_budget_trace (S : Solver) (rho : Nat → Nat) (h : S.max_iters = 0) :
    ∃ b f bad, S.solve_gen rho = [Event.init b f 0 [], Event.fail b f 0 bad] := by
  refine ⟨(min_by_fit (S.pop_init rho 0 S.pop_size).1).1,
    (min_by_fit (S.pop_init rho 0 S.pop_size).1).2,
    S.get_conflicted_cells (min_by_fit (S.pop_init rho 0 S.pop_size).1).1, ?_⟩
  unfold Solver.solve_gen
  rw [h]
  simp [Solver.solve_loop, clone_board_eq, h]

theorem zero_budget_trace_witness :
    tiny_solver.max_iters = 0 ∧
      ∃ b f bad, tiny_solver.solve_gen rho0 = [Event.init b f 0 [], Event.fail b f 0 bad] :=
  ⟨by decide, zero_budget_trace tiny_solver rho0 (by decide)⟩

theorem select_target_row_spec_witness :
    2 < example_belief.row_conflict_scores.sum ∧
      ∃ r, example_belief.select_target_row 2 5 7 = r ∧
        r < example_belief.row_conflict_scores.length ∧
        2 < (example_belief.row_conflict_scores.take (r + 1)).sum ∧
        (∀ r2, r2 < r → (example_belief.row_conflict_scores.take (r2 + 1)).sum ≤ 2) ∧
        0 < example_belief.row_conflict_scores.getD r 0 :=
  ⟨by decide, (select_target_row_spec example_belief 2 5 7).2 (by decide)⟩

theorem polish_step_cases (S : Solver) (rho : Nat → Nat) (pop1 : List (Board × Nat))
    (cb : Board) (cf : Nat) (bad : List (Nat × Nat)) (b1 : Board) (bf1 : Nat) (it k : Nat) :
    ∀ po : PolishOut, po = S.polish_step rho pop1 cb cf bad b1 bf1 it k →
      (po.evs.filterMap carried_fit = [] ∧ po.finished = false ∧ po.best_fit ≤ bf1) ∨
      (po.evs.filterMap carried_fit = [0] ∧ po.finished = true ∧ po.best_fit = 0) := by
  intro po hpo
  simp only [Solver.polish_step] at hpo
  repeat' split at hpo
  all_goals subst hpo
  all_goals
    first
      | (left
         refine ⟨by simp [carried_fit], rfl, ?_⟩
         first
           | exact Nat.le_refl _
           | exact Nat.le_of_lt (by assumption))
      | (right
         exact ⟨by simp [carried_fit], rfl, rfl⟩)

theorem iter_tail_spec (S : Solver) (rho : Nat → Nat) (B : BeliefSpace) (cb : Board)
    (bf1 : Nat) (bad : List (Nat × Nat)) (po : PolishOut) (it : Nat)
    (hpo : (po.evs.filterMap carried_fit = [] ∧ po.finished = false ∧ po.best_fit ≤ bf1) ∨
      (po.evs.filterMap carried_fit = [0] ∧ po.finished = true ∧ po.best_fit = 0)) :
    (S.iter_tail rho B (Event.iter cb bf1 it bad) po it).st.best_fit ≤ bf1 ∧
    (((S.iter_tail rho B (Event.iter cb bf1 it bad) po it).finished = false ∧
        (S.iter_tail rho B (Event.iter cb bf1 it bad) po it).evs.filterMap carried_fit = [bf1]) ∨
      ((S.iter_tail rho B (Event.iter cb bf1 it bad) po it).finished = true ∧
        (S.iter_tail rho B (Event.iter cb bf1 it bad) po it).evs.filterMap carried_fit
          = [bf1, 0])) := by
  obtain ⟨evs, pop, best, bfit, fin, ctr⟩ := po
  rcases hpo with ⟨he, hf, hle⟩ | ⟨he, hf, hz⟩
  · simp only at he hf hle
    subst hf
    by_cases hzz : bfit = 0
    · subst hzz
      refine ⟨?_, Or.inr ⟨?_, ?_⟩⟩
      · simp [Solver.iter_tail]
      · simp [Solver.iter_tail]
      · simp [Solver.iter_tail, carried_fit, he, List.filterMap_append]
    · refine ⟨?_, Or.inl ⟨?_, ?_⟩⟩
      · simpa [Solver.iter_tail, hzz] using hle
      · simp [Solver.iter_tail, hzz]
      · simp [Solver.iter_tail, hzz, carried_fit, he]
  · simp only at he hf hz
    subst hf
    subst hz
    refine ⟨?_, Or.inr ⟨?_, ?_⟩⟩
    · simp [Solver.iter_tail]
    · simp [Solver.iter_tail]
    · simp [Solver.iter_tail, carried_fit, he]

theorem iter_body_spec (S : Solver) (rho : Nat → Nat) (s : GState) (it : Nat) :
    ∃ bf1, bf1 ≤ s.best_fit ∧
      (S.iter_body rho s it).st.best_fit ≤ bf1 ∧
      (((S.iter_body rho s it).finished = false ∧
          (S.iter_body rho s it).evs.filterMap carried_fit = [bf1]) ∨
        ((S.iter_body rho s it).finished = true ∧
          (S.iter_body rho s it).evs.filterMap carried_fit = [bf1, 0])) := by
  have hpc := polish_step_cases S rho (sort_by_fit s.pop)
    ((sort_by_fit s.pop).headD ([], 0)).1 ((sort_by_fit s.pop).headD ([], 0)).2
    (S.get_conflicted_cells ((sort_by_fit s.pop).headD ([], 0)).1)
    (if ((sort_by_fit s.pop).headD ([], 0)).2 < s.best_fit
      then clone_board ((sort_by_fit s.pop).headD ([], 0)).1 else s.best)
    (if ((sort_by_fit s.pop).headD ([], 0)).2 < s.best_fit
      then ((sort_by_fit s.pop).headD ([], 0)).2 else s.best_fit)
    it s.ctr _ rfl
  have h := iter_tail_spec S rho
    (s.belief.update (S.elites_of s.pop) S.get_conflicted_cells)
    (clone_board ((sort_by_fit s.pop).headD ([], 0)).1)
    (if ((sort_by_fit s.pop).headD ([], 0)).2 < s.best_fit
      then ((sort_by_fit s.pop).headD ([], 0)).2 else s.best_fit)
    (S.get_conflicted_cells ((sort_by_fit s.pop).headD ([], 0)).1)
    (S.polish_step rho (sort_by_fit s.pop)
      ((sort_by_fit s.pop).headD ([], 0)).1 ((sort_by_fit s.pop).headD ([], 0)).2
      (S.get_conflicted_cells ((sort_by_fit s.pop).headD ([], 0)).1)
      (if ((sort_by_fit s.pop).headD ([], 0)).2 < s.best_fit
        then clone_board ((sort_by_fit s.pop).headD ([], 0)).1 else s.best)
      (if ((sort_by_fit s.pop).headD ([], 0)).2 < s.best_fit
        then ((sort_by_fit s.pop).headD ([], 0)).2 else s.best_fit)
      it s.ctr)
    it hpc
  refine ⟨if ((sort_by_fit s.pop).headD ([], 0)).2 < s.best_fit
    then ((sort_by_fit s.pop).headD ([], 0)).2 else s.best_fit, ?_, ?_, ?_⟩
  · split <;> omega
  · exact h.1
  · exact h.2

theorem solve_loop_fits (S : Solver) (rho : Nat → Nat) :
    ∀ (its : List Nat) (s : GState),
      List.Pairwise (fun a b => b ≤ a)
        (s.best_fit :: (S.solve_loop rho its s).filterMap carried_fit) := by
  intro its
  induction its with
  | nil =>
      intro s
      simp [Solver.solve_loop, carried_fit]
  | cons it rest ih =>
      intro s
      rcases iter_body_spec S rho s it with ⟨bf1, hle, hst, hcase⟩
      simp only [Solver.solve_loop]
      rcases hcase with ⟨hf, hev⟩ | ⟨hf, hev⟩
      · rw [if_neg (by simp [hf])]
        rw [List.filterMap_append, hev]
        have ihs := ih (S.iter_body rho s it).st
        rcases List.pairwise_cons.mp ihs with ⟨hall, htail⟩
        refine List.pairwise_cons.mpr ⟨?_, List.pairwise_cons.mpr ⟨?_, htail⟩⟩
        · intro a ha
          rcases List.mem_cons.mp ha with rfl | ha
          · omega
          · have := hall a ha
            omega
        · intro a ha
          have := hall a ha
          omega
      · rw [if_pos hf, hev]
        refine List.pairwise_cons.mpr ⟨?_, List.pairwise_cons.mpr ⟨?_, by simp⟩⟩
        · intro a ha
          rcases List.mem_cons.mp ha with rfl | ha
          · omega
          · simp only [List.mem_singleton] at ha
            omega
        · intro a ha
          simp only [List.mem_singleton] at ha
          omega

/-- C5: in the event sequence produced by `solve_gen`, the best-known fitness
values carried by successive `iter`, `done` and `fail` events form a
non-increasing sequence. -/
theorem event_fitness_monotone (S : Solver) (rho : Nat → Nat) :
    List.Pairwise (fun a b => b ≤ a) ((S.solve_gen rho).filterMap carried_fit) := by
  have h := solve_loop_fits S rho (List.range' 1 S.max_iters)
    ⟨(S.pop_init rho 0 S.pop_size).1, (min_by_fit (S.pop_init rho 0 S.pop_size).1).1,
      (min_by_fit (S.pop_init rho 0 S.pop_size).1).2, BeliefSpace.make S.N,
      (S.pop_init rho 0 S.pop_size).2⟩
  have h2 := (List.pairwise_cons.mp h).2
  simp only [Solver.solve_gen, List.filterMap_cons]
  exact h2

theorem nat_sum_eq_zero_iff (l : List Nat) : l.sum = 0 ↔ ∀ x ∈ l, x = 0 := by
  induction l with
  | nil => simp
  | cons a t ih =>
      simp only [List.sum_cons, List.mem_cons]
      constructor
      · intro h
        have h1 : a = 0 ∧ t.sum = 0 := by omega
        intro x hx
        rcases hx with rfl | hx
        · exact h1.1
        · exact (ih.mp h1.2) x hx
      · intro h
        have h1 : a = 0 := h a (Or.inl rfl)
        have h2 : t.sum = 0 := ih.mpr (fun x hx => h x (Or.inr hx))
        omega

theorem mem_all_cells (S : Solver) (r c : Nat) :
    (r, c) ∈ S.all_cells ↔ r < S.N ∧ c < S.N := by
  unfold Solver.all_cells
  constructor
  · intro h
    rcases List.mem_flatMap.mp h with ⟨a, ha, hb⟩
    rcases List.mem_map.mp hb with ⟨c2, hc2, heq⟩
    simp only [Prod.mk.injEq] at heq
    exact ⟨heq.1 ▸ List.mem_range.mp ha, heq.2 ▸ List.mem_range.mp hc2⟩
  · rintro ⟨hr, hc⟩
    exact List.mem_flatMap.mpr ⟨r, List.mem_range.mpr hr,
      List.mem_map.mpr ⟨c, List.mem_range.mpr hc, rfl⟩⟩

theorem mem_range_step {stop step x : Nat} :
    x ∈ range_step stop step ↔ ∃ t, t < (stop + step - 1) / step ∧ t * step = x := by
  unfold range_step
  constructor
  · intro h
    rcases List.mem_map.mp h with ⟨t, ht, rfl⟩
    exact ⟨t, List.mem_range.mp ht, rfl⟩
  · rintro ⟨t, ht, rfl⟩
    exact List.mem_map.mpr ⟨t, List.mem_range.mpr ht, rfl⟩

theorem div_mul_mem_range_step {N h r : Nat} (hh : 0 < h) (hr : r < N) :
    r / h * h ∈ range_step N h := by
  apply mem_range_step.mpr
  refine ⟨r / h, ?_, rfl⟩
  have h1 : r / h ≤ (N - 1) / h := Nat.div_le_div_right (by omega)
  have h2 : (N - 1 + h) / h = (N - 1) / h + 1 := Nat.add_div_right _ hh
  have h3 : N + h - 1 = N - 1 + h := by omega
  rw [h3, h2]
  omega

theorem mem_block_starts (S : Solver) {br bc : Nat} :
    (br, bc) ∈ S.block_starts ↔
      br ∈ range_step S.N S.br_h ∧ bc ∈ range_step S.N S.bc_w := by
  unfold Solver.block_starts
  constructor
  · intro h
    rcases List.mem_flatMap.mp h with ⟨a, ha, hb⟩
    rcases List.mem_map.mp hb with ⟨b2, hb2, heq⟩
    simp only [Prod.mk.injEq] at heq
    exact ⟨heq.1 ▸ ha, heq.2 ▸ hb2⟩
  · rintro ⟨h1, h2⟩
    exact List.mem_flatMap.mpr ⟨br, h1, List.mem_map.mpr ⟨bc, h2, rfl⟩⟩

theorem mem_block_cells (S : Solver) {br bc : Nat} {x : Nat × Nat} :
    x ∈ S.block_cells br bc ↔
      ∃ di, di < S.br_h ∧ ∃ dj, dj < S.bc_w ∧ x = (br + di, bc + dj) := by
  unfold Solver.block_cells
  constructor
  · intro h
    rcases List.mem_flatMap.mp h with ⟨di, hdi, hb⟩
    rcases List.mem_map.mp hb with ⟨dj, hdj, heq⟩
    exact ⟨di, List.mem_range.mp hdi, dj, List.mem_range.mp hdj, heq.symm⟩
  · rintro ⟨di, hdi, dj, hdj, rfl⟩
    exact List.mem_flatMap.mpr ⟨di, List.mem_range.mpr hdi,
      List.mem_map.mpr ⟨dj, List.mem_range.mpr hdj, rfl⟩⟩

theorem mem_col_cells (S : Solver) {x : Nat × Nat} {c : Nat} :
    x ∈ S.col_cells c ↔ x.1 < S.N ∧ x.2 = c := by
  obtain ⟨r, c2⟩ := x
  unfold Solver.col_cells
  constructor
  · intro h
    rcases List.mem_map.mp h with ⟨r2, hr2, heq⟩
    simp only [Prod.mk.injEq] at heq
    exact ⟨heq.1 ▸ List.mem_range.mp hr2, heq.2.symm⟩
  · rintro ⟨h1, h2⟩
    subst h2
    exact List.mem_map.mpr ⟨r, List.mem_range.mpr h1, rfl⟩

theorem block_start_of_eq (S : Solver) {br bc di dj t u : Nat}
    (hbr : br = t * S.br_h) (hbc : bc = u * S.bc_w)
    (hdi : di < S.br_h) (hdj : dj < S.bc_w) :
    S.block_start_of (br + di) (bc + dj) = (br, bc) := by
  unfold Solver.block_start_of
  have hh : 0 < S.br_h := by omega
  have hw : 0 < S.bc_w := by omega
  have h1 : (br + di) / S.br_h = t := by
    have he : br + di = di + S.br_h * t := by rw [hbr]; ring
    rw [he, Nat.add_mul_div_left _ _ hh, Nat.div_eq_of_lt hdi]
    omega
  have h2 : (bc + dj) / S.bc_w = u := by
    have he : bc + dj = dj + S.bc_w * u := by rw [hbc]; ring
    rw [he, Nat.add_mul_div_left _ _ hw, Nat.div_eq_of_lt hdj]
    omega
  rw [h1, h2, hbr, hbc]

theorem block_start_bound {N h t : Nat} (hdvd : h ∣ N) (hh : 0 < h)
    (ht : t < (N + h - 1) / h) : t * h + h ≤ N := by
  rcases hdvd with ⟨m, rfl⟩
  have he : h * m + h - 1 = (h - 1) + h * m := by omega
  have h1 : ((h - 1) + h * m) / h = (h - 1) / h + m := Nat.add_mul_div_left _ _ hh
  have h2 : (h - 1) / h = 0 := Nat.div_eq_of_lt (by omega)
  rw [he, h1, h2] at ht
  have h3 : (t + 1) * h ≤ m * h := Nat.mul_le_mul_right h (by omega)
  have h4 : (t + 1) * h = t * h + h := by ring
  have h5 : m * h = h * m := by ring
  omega

theorem block_cell_bounds (S : Solver) (hdvdh : S.br_h ∣ S.N) (hdvdw : S.bc_w ∣ S.N)
    {br bc : Nat} {x : Nat × Nat} (hst : (br, bc) ∈ S.block_starts)
    (hcell : x ∈ S.block_cells br bc) :
    S.block_start_of x.1 x.2 = (br, bc) ∧ x.1 < S.N ∧ x.2 < S.N := by
  rcases (mem_block_starts S).mp hst with ⟨h1, h2⟩
  rcases mem_range_step.mp h1 with ⟨t, ht, hbr⟩
  rcases mem_range_step.mp h2 with ⟨u, hu, hbc⟩
  rcases (mem_block_cells S).mp hcell with ⟨di, hdi, dj, hdj, rfl⟩
  have hh : 0 < S.br_h := by omega
  have hw : 0 < S.bc_w := by omega
  refine ⟨block_start_of_eq S hbr.symm hbc.symm hdi hdj, ?_, ?_⟩
  · have := block_start_bound hdvdh hh ht
    simp only []
    omega
  · have := block_start_bound hdvdw hw hu
    simp only []
    omega

theorem col_cells_nodup (S : Solver) (c : Nat) : (S.col_cells c).Nodup := by
  unfold Solver.col_cells
  refine List.Nodup.map ?_ (List.nodup_range S.N)
  intro a b hab
  simpa using congrArg Prod.fst hab

theorem block_cells_nodup (S : Solver) (br bc : Nat) : (S.block_cells br bc).Nodup := by
  unfold Solver.block_cells
  rw [List.nodup_flatMap]
  constructor
  · intro i _
    refine List.Nodup.map ?_ (List.nodup_range S.bc_w)
    intro a b hab
    simpa using congrArg Prod.snd hab
  · have hpw : (List.range S.br_h).Pairwise (fun a b => a ≠ b) :=
      (List.nodup_range S.br_h)
    refine hpw.imp ?_
    intro i j hij
    intro x hx1 hx2
    rcases List.mem_map.mp hx1 with ⟨a, _, ha⟩
    rcases List.mem_map.mp hx2 with ⟨b2, _, hb⟩
    have := congrArg Prod.fst (ha.trans hb.symm)
    simp only [] at this
    omega

theorem two_le_count_map {α : Type} [DecidableEq α] {l : List α} {x y : α}
    {f : α → Nat} {v : Nat}
    (hnd : l.Nodup) (hx : x ∈ l) (hy : y ∈ l) (hxy : x ≠ y)
    (hfx : f x = v) (hfy : f y = v) : 2 ≤ (l.map f).count v := by
  induction l with
  | nil => cases hx
  | cons a t ih =>
      rw [List.map_cons, List.count_cons]
      rcases List.mem_cons.mp hx with hxa | hx2
      · have hyt : y ∈ t := by
          rcases List.mem_cons.mp hy with h1 | h1
          · exact absurd (hxa.trans h1.symm) hxy
          · exact h1
        have h1 : 0 < (t.map f).count v := by
          apply List.count_pos_iff.mpr
          rw [← hfy]
          exact List.mem_map_of_mem f hyt
        have h2 : (f a == v) = true := by
          rw [← hxa, hfx]; simp
        rw [if_pos h2]
        omega
      · rcases List.mem_cons.mp hy with hya | hy2
        · have h1 : 0 < (t.map f).count v := by
            apply List.count_pos_iff.mpr
            rw [← hfx]
            exact List.mem_map_of_mem f hx2
          have h2 : (f a == v) = true := by
            rw [← hya, hfy]; simp
          rw [if_pos h2]
          omega
        · have := ih (List.nodup_cons.mp hnd).2 hx2 hy2
          split <;> omega

theorem exists_two_of_count_map {α : Type} [DecidableEq α] {f : α → Nat} {v : Nat} :
    ∀ {l : List α}, l.Nodup → 2 ≤ (l.map f).count v →
      ∃ x, x ∈ l ∧ ∃ y, y ∈ l ∧ x ≠ y ∧ f x = v ∧ f y = v := by
  intro l
  induction l with
  | nil =>
      intro _ h
      simp only [List.map_nil, List.count_nil] at h
      omega
  | cons a t ih =>
      intro hnd h
      rw [List.map_cons, List.count_cons] at h
      by_cases hfa : f a = v
      · have hba : (f a == v) = true := by simp [hfa]
        rw [if_pos hba] at h
        have h2 : v ∈ t.map f := List.count_pos_iff.mp (by omega)
        rcases List.mem_map.mp h2 with ⟨y, hy, hfy⟩
        refine ⟨a, List.mem_cons_self a t, y, List.mem_cons_of_mem a hy, ?_, hfa, hfy⟩
        intro he
        exact (List.nodup_cons.mp hnd).1 (he ▸ hy)
      · have hba : (f a == v) = false := by simp [hfa]
        rw [if_neg (by simp [hba])] at h
        rcases ih (List.nodup_cons.mp hnd).2 (by omega) with ⟨x, hx, y, hy, hxy, hfx, hfy⟩
        exact ⟨x, List.mem_cons_of_mem a hx, y, List.mem_cons_of_mem a hy, hxy, hfx, hfy⟩

theorem col_group_mem (S : Solver) (b : Board) {c : Nat} (hc : c < S.N) :
    S.col_vals b c ∈ S.group_vals b := by
  unfold Solver.group_vals Solver.group_cells Solver.col_vals
  apply List.mem_map.mpr
  refine ⟨S.col_cells c, ?_, rfl⟩
  apply List.mem_append.mpr
  left
  exact List.mem_map.mpr ⟨c, List.mem_range.mpr hc, rfl⟩

theorem block_group_mem (S : Solver) (b : Board) {br bc : Nat}
    (h : (br, bc) ∈ S.block_starts) :
    S.block_vals b br bc ∈ S.group_vals b := by
  unfold Solver.group_vals Solver.group_cells Solver.block_vals
  apply List.mem_map.mpr
  refine ⟨S.block_cells br bc, ?_, rfl⟩
  apply List.mem_append.mpr
  right
  exact List.mem_map.mpr ⟨(br, bc), h, rfl⟩

theorem conflicted_of_dup (S : Solver) (b : Board) {r c : Nat}
    (hr : r < S.N) (hc : c < S.N) (hfix : S.fixedAt r c = false)
    (hdup : 1 < (S.col_vals b c).count (valAt b r c) ∨
      1 < (S.block_vals b (S.block_start_of r c).1
        (S.block_start_of r c).2).count (valAt b r c)) :
    (r, c) ∈ S.get_conflicted_cells b := by
  unfold Solver.get_conflicted_cells
  apply List.mem_filter.mpr
  refine ⟨(mem_all_cells S r c).mpr ⟨hr, hc⟩, ?_⟩
  simp only [Solver.in_conflict, hfix, Bool.not_false, Bool.true_and, Bool.or_eq_true,
    decide_eq_true_eq]
  exact hdup

theorem fitness_zero_no_conflict (S : Solver) (b : Board)
    (hdvdh : S.br_h ∣ S.N) (hdvdw : S.bc_w ∣ S.N)
    (h : S.fitness b = 0) : S.get_conflicted_cells b = [] := by
  have hall : ∀ g ∈ S.group_vals b, g.Nodup := by
    intro g hg
    have h0 : dup_count g = 0 :=
      (nat_sum_eq_zero_iff _).mp h (dup_count g) (List.mem_map_of_mem dup_count hg)
    exact (dup_count_eq_zero_iff g).mp h0
  unfold Solver.get_conflicted_cells
  rw [List.filter_eq_nil_iff]
  rintro ⟨r, c⟩ hmem
  have hrc := (mem_all_cells S r c).mp hmem
  intro hconf
  simp only [Solver.in_conflict, Bool.and_eq_true, Bool.or_eq_true, decide_eq_true_eq] at hconf
  rcases hconf with ⟨-, hdup | hdup⟩
  · have hnd := hall _ (col_group_mem S b hrc.2)
    have := List.nodup_iff_count_le_one.mp hnd (valAt b r c)
    omega
  · have hN : 0 < S.N := by omega
    have hh : 0 < S.br_h := Nat.pos_of_dvd_of_pos hdvdh hN
    have hw : 0 < S.bc_w := Nat.pos_of_dvd_of_pos hdvdw hN
    have hbs : ((S.block_start_of r c).1, (S.block_start_of r c).2) ∈ S.block_starts := by
      apply (mem_block_starts S).mpr
      exact ⟨div_mul_mem_range_step hh hrc.1, div_mul_mem_range_step hw hrc.2⟩
    have hnd := hall _ (block_group_mem S b hbs)
    have := List.nodup_iff_count_le_one.mp hnd (valAt b r c)
    omega

theorem fixed_pair_contradiction (S : Solver) (b : Board) {cells : List (Nat × Nat)}
    (hgc : cells ∈ S.group_cells) (hck : S.clues_ok) (hrc : S.row_complete b)
    {x y : Nat × Nat} {v : Nat}
    (hx : x ∈ cells) (hy : y ∈ cells) (hxy : x ≠ y)
    (hxN : x.1 < S.N ∧ x.2 < S.N) (hyN : y.1 < S.N ∧ y.2 < S.N)
    (hfixx : S.fixedAt x.1 x.2 = true) (hfixy : S.fixedAt y.1 y.2 = true)
    (hvx : valAt b x.1 x.2 = v) (hvy : valAt b y.1 y.2 = v)
    (hnd : cells.Nodup) : False := by
  have hpx : valAt S.puzzle x.1 x.2 = v := by
    rw [← hvx]
    exact ((hrc.2 x.1 hxN.1).2 x.2 hxN.2 hfixx).symm
  have hpy : valAt S.puzzle y.1 y.2 = v := by
    rw [← hvy]
    exact ((hrc.2 y.1 hyN.1).2 y.2 hyN.2 hfixy).symm
  have hv0 : v ≠ 0 := by
    have h0 : valAt S.puzzle x.1 x.2 ≠ 0 := by simpa [Solver.fixedAt] using hfixx
    rw [hpx] at h0
    exact h0
  have hcount : 2 ≤ (cells.map (fun rc => valAt S.puzzle rc.1 rc.2)).count v :=
    two_le_count_map hnd hx hy hxy hpx hpy
  have hgmem : cells.map (fun rc => valAt S.puzzle rc.1 rc.2) ∈ S.group_vals S.puzzle :=
    List.mem_map_of_mem _ hgc
  have hnod := hck _ hgmem
  have hcf : ((cells.map (fun rc => valAt S.puzzle rc.1 rc.2)).filter
      (fun w => w != 0)).count v
      = (cells.map (fun rc => valAt S.puzzle rc.1 rc.2)).count v :=
    List.count_filter (by simpa using hv0)
  have hle := List.nodup_iff_count_le_one.mp hnod v
  omega

theorem no_conflict_fitness_zero (S : Solver) (b : Board)
    (hdvdh : S.br_h ∣ S.N) (hdvdw : S.bc_w ∣ S.N)
    (hrc : S.row_complete b) (hck : S.clues_ok)
    (h : S.get_conflicted_cells b = []) : S.fitness b = 0 := by
  unfold Solver.fitness
  rw [nat_sum_eq_zero_iff]
  intro z hz
  rcases List.mem_map.mp hz with ⟨g, hg, rfl⟩
  rw [dup_count_eq_zero_iff]
  rcases List.mem_map.mp hg with ⟨cells, hcells, rfl⟩
  by_contra hnd
  have hv : ∃ v, 2 ≤ (cells.map (fun rc => valAt b rc.1 rc.2)).count v := by
    by_contra hno
    push_neg at hno
    exact hnd (List.nodup_iff_count_le_one.mpr (fun a => by have := hno a; omega))
  rcases hv with ⟨v, hv2⟩
  have hnotmem : ∀ p : Nat × Nat, p ∉ S.get_conflicted_cells b := by
    intro p hp
    rw [h] at hp
    cases hp
  rcases List.mem_append.mp hcells with hcol | hblk
  · rcases List.mem_map.mp hcol with ⟨c, hcr, rfl⟩
    have hcn : c < S.N := List.mem_range.mp hcr
    have hndc : (S.col_cells c).Nodup := col_cells_nodup S c
    rcases exists_two_of_count_map hndc hv2 with ⟨x, hx1, y, hy1, hxy, hfx, hfy⟩
    have hxc := (mem_col_cells S).mp hx1
    have hyc := (mem_col_cells S).mp hy1
    have hxN : x.1 < S.N ∧ x.2 < S.N := ⟨hxc.1, hxc.2 ▸ hcn⟩
    have hyN : y.1 < S.N ∧ y.2 < S.N := ⟨hyc.1, hyc.2 ▸ hcn⟩
    have hgcm : S.col_cells c ∈ S.group_cells := List.mem_append.mpr (Or.inl hcol)
    by_cases hfixx : S.fixedAt x.1 x.2 = true
    · by_cases hfixy : S.fixedAt y.1 y.2 = true
      · exact fixed_pair_contradiction S b hgcm hck hrc hx1 hy1 hxy hxN hyN
          hfixx hfixy hfx hfy hndc
      · have hfy2 : S.fixedAt y.1 y.2 = false := by
          cases hb : S.fixedAt y.1 y.2
          · rfl
          · exact absurd hb hfixy
        apply hnotmem (y.1, y.2)
        have hcv2 : 1 < (S.col_vals b y.2).count (valAt b y.1 y.2) := by
          rw [hfy, hyc.2]
          exact hv2
        exact conflicted_of_dup S b hyN.1 hyN.2 hfy2 (Or.inl hcv2)
    · have hfx2 : S.fixedAt x.1 x.2 = false := by
        cases hb : S.fixedAt x.1 x.2
        · rfl
        · exact absurd hb hfixx
      apply hnotmem (x.1, x.2)
      have hcv2 : 1 < (S.col_vals b x.2).count (valAt b x.1 x.2) := by
        rw [hfx, hxc.2]
        exact hv2
      exact conflicted_of_dup S b hxN.1 hxN.2 hfx2 (Or.inl hcv2)
  · rcases List.mem_map.mp hblk with ⟨st, hst, rfl⟩
    have hst2 : (st.1, st.2) ∈ S.block_starts := hst
    have hndb : (S.block_cells st.1 st.2).Nodup := block_cells_nodup S st.1 st.2
    have hgbm : S.block_cells st.1 st.2 ∈ S.group_cells := List.mem_append.mpr (Or.inr hblk)
    rcases exists_two_of_count_map hndb hv2 with ⟨x, hx1, y, hy1, hxy, hfx, hfy⟩
    have hxb := block_cell_bounds S hdvdh hdvdw hst2 hx1
    have hyb := block_cell_bounds S hdvdh hdvdw hst2 hy1
    by_cases hfixx : S.fixedAt x.1 x.2 = true
    · by_cases hfixy : S.fixedAt y.1 y.2 = true
      · exact fixed_pair_contradiction S b hgbm hck hrc hx1 hy1 hxy
          ⟨hxb.2.1, hxb.2.2⟩ ⟨hyb.2.1, hyb.2.2⟩ hfixx hfixy hfx hfy hndb
      · have hfy2 : S.fixedAt y.1 y.2 = false := by
          cases hb : S.fixedAt y.1 y.2
          · rfl
          · exact absurd hb hfixy
        apply hnotmem (y.1, y.2)
        have hbv : 1 < (S.block_vals b (S.block_start_of y.1 y.2).1
            (S.block_start_of y.1 y.2).2).count (valAt b y.1 y.2) := by
          rw [hfy, hyb.1]
          exact hv2
        exact conflicted_of_dup S b hyb.2.1 hyb.2.2 hfy2 (Or.inr hbv)
    · have hfx2 : S.fixedAt x.1 x.2 = false := by
        cases hb : S.fixedAt x.1 x.2
        · rfl
        · exact absurd hb hfixx
      apply hnotmem (x.1, x.2)
      have hbv : 1 < (S.block_vals b (S.block_start_of x.1 x.2).1
          (S.block_start_of x.1 x.2).2).count (valAt b x.1 x.2) := by
        rw [hfx, hxb.1]
        exact hv2
      exact conflicted_of_dup S b hxb.2.1 hxb.2.2 hfx2 (Or.inr hbv)

/-- C3 counterexample: the all-fixed conflicting board satisfies
row-completeness with respect to its solver's fixed mask and has nonzero
fitness, yet `get_conflicted_cells` returns the empty list, because fixed
cells are never reported. -/
theorem zero_fitness_iff_counterexample :
    all_fixed_solver.row_complete all_fixed_board ∧
      ¬ (all_fixed_solver.fitness all_fixed_board = 0 ↔
        all_fixed_solver.get_conflicted_cells all_fixed_board = []) := by
  decide

/-- C3 amended: for boards satisfying row-completeness with respect to the
solver's fixed mask, over a puzzle whose blocks tile the board and whose
fixed clues are themselves free of column and block duplicates,
`fitness(board) = 0` if and only if `get_conflicted_cells(board)` is
empty. -/
theorem zero_fitness_iff_no_conflicted_cells (S : Solver) (b : Board)
    (hdvdh : S.br_h ∣ S.N) (hdvdw : S.bc_w ∣ S.N)
    (hrc : S.row_complete b) (hck : S.clues_ok) :
    S.fitness b = 0 ↔ S.get_conflicted_cells b = [] := by
  constructor
  · exact fitness_zero_no_conflict S b hdvdh hdvdw
  · exact no_conflict_fitness_zero S b hdvdh hdvdw hrc hck

theorem zero_fitness_iff_no_conflicted_cells_witness :
    (open_solver.br_h ∣ open_solver.N ∧ open_solver.bc_w ∣ open_solver.N ∧
        open_solver.row_complete open_solution ∧ open_solver.clues_ok) ∧
      (open_solver.fitness open_solution = 0 ↔
        open_solver.get_conflicted_cells open_solution = []) :=
  ⟨by decide, zero_fitness_iff_no_conflicted_cells open_solver open_solution
    (by decide) (by decide) (by decide) (by decide)⟩

theorem getElem_cons_set_perm {α : Type} (a : α) :
    ∀ (t : List α) (k : Nat) (h : k < t.length),
      (t[k] :: t.set k a).Perm (a :: t) := by
  intro t
  induction t with
  | nil => intro k h; simp at h
  | cons b t2 ih =>
      intro k h
      match k with
      | 0 =>
          show (b :: a :: t2).Perm (a :: b :: t2)
          exact List.Perm.swap a b t2
      | m + 1 =>
          have h2 : m < t2.length := by simpa using h
          have ihm := ih m h2
          show (t2[m] :: b :: t2.set m a).Perm (a :: b :: t2)
          exact ((List.Perm.swap b (t2[m]) (t2.set m a)).trans (ihm.cons b)).trans
            (List.Perm.swap a b t2)

theorem set_getD_self (row : List Nat) (c : Nat) :
    row.set c (row.getD c 0) = row := by
  by_cases h : c < row.length
  · apply List.ext_getElem
    · simp
    · intro i h1 h2
      rw [List.getElem_set]
      split
      · rename_i he
        subst he
        rw [List.getD_eq_getElem row 0 h]
      · rfl
  · rw [List.set_eq_of_length_le (by omega)]

theorem swap_cells_perm (row : List Nat) (c1 c2 : Nat)
    (h1 : c1 < row.length) (h2 : c2 < row.length) :
    (swap_cells row c1 c2).Perm row := by
  by_cases he : c1 = c2
  · subst he
    unfold swap_cells
    rw [List.set_set, set_getD_self]
  · unfold swap_cells
    rw [List.getD_eq_getElem row 0 h1, List.getD_eq_getElem row 0 h2]
    have hlen : (row.set c1 row[c2]).length = row.length := by simp
    have hx : c2 < (row.set c1 row[c2]).length := by omega
    have hA2 : (row.set c1 row[c2]).get ⟨c2, hx⟩ = row[c2] :=
      List.getElem_set_ne (by omega) _
    have hp1 : ((row.set c1 row[c2]).get ⟨c2, hx⟩ ::
        (row.set c1 row[c2]).set c2 row[c1]).Perm (row[c1] :: row.set c1 row[c2]) :=
      getElem_cons_set_perm row[c1] (row.set c1 row[c2]) c2 hx
    have hp2 : (row[c1] :: row.set c1 row[c2]).Perm (row[c2] :: row) :=
      getElem_cons_set_perm row[c2] row c1 h1
    rw [hA2] at hp1
    exact (hp1.trans hp2).cons_inv

theorem swap_cells_length (row : List Nat) (c1 c2 : Nat) :
    (swap_cells row c1 c2).length = row.length := by
  simp [swap_cells]

theorem swap_cells_getD_ne (row : List Nat) {c1 c2 c : Nat}
    (hc1 : c ≠ c1) (hc2 : c ≠ c2) :
    (swap_cells row c1 c2).getD c 0 = row.getD c 0 := by
  unfold swap_cells
  rw [List.getD_eq_getElem?_getD, List.getElem?_set_ne (by omega : c2 ≠ c),
    List.getElem?_set_ne (by omega : c1 ≠ c), ← List.getD_eq_getElem?_getD]

theorem swap_in_row_row_complete (S : Solver) {b : Board} {r c1 c2 : Nat}
    (hb : S.row_complete b) (hc1 : c1 < S.N) (hc2 : c2 < S.N)
    (hf1 : S.fixedAt r c1 = false) (hf2 : S.fixedAt r c2 = false) :
    S.row_complete (swap_in_row b r c1 c2) := by
  rcases hb with ⟨hlen, hrows⟩
  by_cases hr : r < b.length
  · constructor
    · simp [swap_in_row, hlen]
    · intro r2 hr2
      by_cases hre : r2 = r
      · subst hre
        have hget : (swap_in_row b r2 c1 c2).getD r2 [] =
            swap_cells (b.getD r2 []) c1 c2 := by
          unfold swap_in_row
          rw [List.getD_eq_getElem?_getD, List.getElem?_set_self (by omega)]
          rfl
        have hrowlen : (b.getD r2 []).length = S.N :=
          ((hrows r2 hr2).1.length_eq).trans (by simp)
        constructor
        · rw [hget]
          exact (swap_cells_perm _ c1 c2 (by omega) (by omega)).trans (hrows r2 hr2).1
        · intro c hc hfix
          have hcc1 : c ≠ c1 := by
            intro he
            rw [he, hf1] at hfix
            cases hfix
          have hcc2 : c ≠ c2 := by
            intro he
            rw [he, hf2] at hfix
            cases hfix
          have : valAt (swap_in_row b r2 c1 c2) r2 c = valAt b r2 c := by
            unfold valAt
            rw [hget]
            exact swap_cells_getD_ne _ hcc1 hcc2
          rw [this]
          exact (hrows r2 hr2).2 c hc hfix
      · have hget : (swap_in_row b r c1 c2).getD r2 [] = b.getD r2 [] := by
          unfold swap_in_row
          rw [List.getD_eq_getElem?_getD, List.getElem?_set_ne (by omega),
            ← List.getD_eq_getElem?_getD]
        constructor
        · rw [hget]
          exact (hrows r2 hr2).1
        · intro c hc hfix
          have : valAt (swap_in_row b r c1 c2) r2 c = valAt b r2 c := by
            unfold valAt
            rw [hget]
          rw [this]
          exact (hrows r2 hr2).2 c hc hfix
  · unfold swap_in_row
    rw [List.set_eq_of_length_le (by omega)]
    exact ⟨hlen, hrows⟩

theorem fill_row_length : ∀ (row ms : List Nat), (fill_row row ms).length = row.length := by
  intro row
  induction row with
  | nil => intro ms; rfl
  | cons v vs ih =>
      intro ms
      by_cases hv : v = 0
      · simp [fill_row, hv, ih]
      · simp [fill_row, hv, ih]

theorem fill_row_fixed : ∀ (row ms : List Nat) (c : Nat), row.getD c 0 ≠ 0 →
    (fill_row row ms).getD c 0 = row.getD c 0 := by
  intro row
  induction row with
  | nil =>
      intro ms c h
      simp at h
  | cons v vs ih =>
      intro ms c h
      match c with
      | 0 =>
          simp only [List.getD_cons_zero] at h
          simp [fill_row, h]
      | c2 + 1 =>
          simp only [List.getD_cons_succ] at h
          by_cases hv : v = 0
          · subst hv
            have hstep : fill_row (0 :: vs) ms = ms.headD 0 :: fill_row vs ms.tail := by
              simp [fill_row]
            rw [hstep, List.getD_cons_succ, List.getD_cons_succ]
            exact ih ms.tail c2 h
          · have hstep : fill_row (v :: vs) ms = v :: fill_row vs ms := by
              simp [fill_row, hv]
            rw [hstep, List.getD_cons_succ, List.getD_cons_succ]
            exact ih ms c2 h

theorem fill_row_perm : ∀ (row ms : List Nat), row.count 0 = ms.length →
    (fill_row row ms).Perm (row.filter (fun v => v != 0) ++ ms) := by
  intro row
  induction row with
  | nil =>
      intro ms h
      simp only [List.count_nil] at h
      have : ms = [] := List.length_eq_zero.mp h.symm
      subst this
      exact List.Perm.refl _
  | cons v vs ih =>
      intro ms h
      by_cases hv : v = 0
      · subst hv
        have h2 : vs.count 0 + 1 = ms.length := by
          have := List.count_cons_self 0 vs
          omega
        match ms with
        | [] => simp at h2
        | m :: ms2 =>
            have h3 : vs.count 0 = ms2.length := by
              simp only [List.length_cons] at h2
              omega
            have hstep : fill_row (0 :: vs) (m :: ms2) = m :: fill_row vs ms2 := by
              simp [fill_row]
            rw [hstep]
            have hf : (0 :: vs).filter (fun v => v != 0) = vs.filter (fun v => v != 0) := by
              rw [List.filter_cons]
              simp
            rw [hf]
            exact ((ih ms2 h3).cons m).trans List.perm_middle.symm
      · have h2 : vs.count 0 = ms.length := by
          have := List.count_cons_of_ne (by omega : (0 : Nat) ≠ v) vs
          omega
        have hstep : fill_row (v :: vs) ms = v :: fill_row vs ms := by
          simp [fill_row, hv]
        rw [hstep]
        have hf : (v :: vs).filter (fun v => v != 0) =
            v :: vs.filter (fun v => v != 0) := by
          rw [List.filter_cons]
          simp [hv]
        rw [hf]
        exact (ih ms h2).cons v

theorem getD_mem_of_lt {α : Type} (l : List α) (d : α) (i : Nat) (h : i < l.length) :
    l.getD i d ∈ l := by
  rw [List.getD_eq_getElem l d h]
  exact List.getElem_mem h

theorem fill_row_shuffled_perm (N : Nat) (rho : Nat → Nat) (k : Nat) {row : List Nat}
    (hlen : row.length = N) (hnd : (row.filter (fun v => v != 0)).Nodup)
    (hle : ∀ v ∈ row, v ≤ N) :
    (fill_row row (shuffle rho k (missing_of_row N row))).Perm (List.range' 1 N) := by
  have hcount : row.count 0 = (shuffle rho k (missing_of_row N row)).length := by
    rw [shuffle_length]
    exact (missing_length_eq N row hlen hnd hle).symm
  have h1 := fill_row_perm row _ hcount
  have h2 : (row.filter (fun v => v != 0) ++
      shuffle rho k (missing_of_row N row)).Perm
      (row.filter (fun v => v != 0) ++ missing_of_row N row) :=
    (shuffle_perm rho k _).append_left _
  have h3 : (List.range' 1 N).Perm
      ((List.range' 1 N).filter (fun v => row.contains v) ++ missing_of_row N row) := by
    have := List.filter_append_perm (fun v => row.contains v) (List.range' 1 N)
    exact this.symm
  have h4 : ((List.range' 1 N).filter (fun v => row.contains v) ++
      missing_of_row N row).Perm (row.filter (fun v => v != 0) ++ missing_of_row N row) :=
    (in_row_filter_perm N row hnd hle).append_right _
  exact (h1.trans h2).trans ((h3.trans h4)).symm

theorem random_rows_complete (N : Nat) (rho : Nat → Nat) :
    ∀ (rows : List (List Nat)) (k : Nat),
      (∀ row ∈ rows, row.length = N ∧
        (row.filter (fun v => v != 0)).Nodup ∧ ∀ v ∈ row, v ≤ N) →
      (random_rows N rho rows k).1.length = rows.length ∧
        ∀ r, r < rows.length →
          ((random_rows N rho rows k).1.getD r []).Perm (List.range' 1 N) ∧
          ∀ c, (rows.getD r []).getD c 0 ≠ 0 →
            ((random_rows N rho rows k).1.getD r []).getD c 0 = (rows.getD r []).getD c 0 := by
  intro rows
  induction rows with
  | nil =>
      intro k _
      exact ⟨rfl, fun r hr => absurd hr (by simp)⟩
  | cons row rest ih =>
      intro k hall
      rcases hall row (List.mem_cons_self row rest) with ⟨h1, h2, h3⟩
      have hstep : (random_rows N rho (row :: rest) k).1 =
          fill_row row (shuffle rho k (missing_of_row N row)) ::
            (random_rows N rho rest (k + (missing_of_row N row).length)).1 := rfl
      rcases ih (k + (missing_of_row N row).length)
        (fun r hr => hall r (List.mem_cons_of_mem row hr)) with ⟨ihl, ihr⟩
      constructor
      · rw [hstep]
        simp [ihl]
      · intro r hr
        match r with
        | 0 =>
            rw [hstep]
            simp only [List.getD_cons_zero]
            exact ⟨fill_row_shuffled_perm N rho k h1 h2 h3,
              fun c hc => fill_row_fixed row _ c hc⟩
        | r2 + 1 =>
            rw [hstep]
            simp only [List.getD_cons_succ]
            exact ihr r2 (by simpa using hr)

theorem random_ind_row_complete (S : Solver) (rho : Nat → Nat) (k : Nat) (hwf : S.wf) :
    S.row_complete (S.random_ind rho k).1 := by
  have h := random_rows_complete S.N rho S.puzzle k (fun row hrow => hwf row hrow)
  refine ⟨h.1, ?_⟩
  intro r hr
  have hr2 : r < S.puzzle.length := hr
  refine ⟨(h.2 r hr2).1, ?_⟩
  intro c _ hfix
  have hne : valAt S.puzzle r c ≠ 0 := by simpa [Solver.fixedAt] using hfix
  exact (h.2 r hr2).2 c hne

theorem getD_map_range {α : Type} (f : Nat → α) (n r : Nat) (d : α) (h : r < n) :
    ((List.range n).map f).getD r d = f r := by
  rw [List.getD_eq_getElem _ d (by simpa using h)]
  simp

theorem cross_child_row_complete (S : Solver) {p1 p2 : Board} (bc : Bool)
    (rc : Nat → Bool) (h1 : S.row_complete p1) (h2 : S.row_complete p2) :
    S.row_complete (S.cross_child p1 p2 bc rc) := by
  have hbase : S.row_complete (if bc then p1 else p2) := by
    by_cases hb : bc = true
    · rw [if_pos hb]; exact h1
    · rw [if_neg hb]; exact h2
  constructor
  · simp [Solver.cross_child]
  · intro r hr
    have hget : (S.cross_child p1 p2 bc rc).getD r [] =
        (if rc r then p2.getD r [] else (if bc then p1 else p2).getD r []) := by
      unfold Solver.cross_child
      exact getD_map_range _ S.N r [] hr
    by_cases hcoin : rc r = true
    · constructor
      · rw [hget, if_pos hcoin]
        exact (h2.2 r hr).1
      · intro c hc hfix
        unfold valAt
        rw [hget, if_pos hcoin]
        exact (h2.2 r hr).2 c hc hfix
    · constructor
      · rw [hget, if_neg hcoin]
        exact (hbase.2 r hr).1
      · intro c hc hfix
        unfold valAt
        rw [hget, if_neg hcoin]
        exact (hbase.2 r hr).2 c hc hfix

theorem mem_mutable_cols (S : Solver) {r c : Nat} {mcols : List Nat}
    (hm : mcols = (List.range S.N).filter (fun c => !S.fixedAt r c)) (hc : c ∈ mcols) :
    c < S.N ∧ S.fixedAt r c = false := by
  subst hm
  rcases List.mem_filter.mp hc with ⟨h1, h2⟩
  exact ⟨List.mem_range.mp h1, by simpa using h2⟩

theorem mutate_child_row_complete (S : Solver) {child : Board} (r i j : Nat)
    (h : S.row_complete child) : S.row_complete (S.mutate_child child r i j) := by
  unfold Solver.mutate_child
  by_cases hlen : 2 ≤ ((List.range S.N).filter (fun c => !S.fixedAt r c)).length
  · rw [if_pos hlen]
    have hlp : 0 < ((List.range S.N).filter (fun c => !S.fixedAt r c)).length := by omega
    have hi2 : i % ((List.range S.N).filter (fun c => !S.fixedAt r c)).length <
        ((List.range S.N).filter (fun c => !S.fixedAt r c)).length := Nat.mod_lt _ hlp
    have hj0 : j % (((List.range S.N).filter (fun c => !S.fixedAt r c)).length - 1) <
        ((List.range S.N).filter (fun c => !S.fixedAt r c)).length - 1 :=
      Nat.mod_lt _ (by omega)
    have hj2 : (if i % ((List.range S.N).filter (fun c => !S.fixedAt r c)).length ≤
          j % (((List.range S.N).filter (fun c => !S.fixedAt r c)).length - 1)
        then j % (((List.range S.N).filter (fun c => !S.fixedAt r c)).length - 1) + 1
        else j % (((List.range S.N).filter (fun c => !S.fixedAt r c)).length - 1)) <
        ((List.range S.N).filter (fun c => !S.fixedAt r c)).length := by
      split <;> omega
    have hc1 := mem_mutable_cols S rfl
      (getD_mem_of_lt ((List.range S.N).filter (fun c => !S.fixedAt r c)) 0 _ hi2)
    have hc2 := mem_mutable_cols S rfl
      (getD_mem_of_lt ((List.range S.N).filter (fun c => !S.fixedAt r c)) 0 _ hj2)
    exact swap_in_row_row_complete S h hc1.1 hc2.1 hc1.2 hc2.2
  · rw [if_neg hlen]
    exact h

theorem make_child_row_complete (S : Solver) (rho : Nat → Nat)
    {elites pool : List (Board × Nat)} (B : BeliefSpace) (k : Nat)
    (he : ∀ p ∈ elites, S.row_complete p.1) (hp : ∀ p ∈ pool, S.row_complete p.1)
    (hene : elites ≠ []) (hpne : pool ≠ []) :
    S.row_complete (S.make_child rho elites pool B k).1 := by
  have he1 : 0 < elites.length := List.length_pos.mpr hene
  have hp1 : 0 < pool.length := List.length_pos.mpr hpne
  have hq1 : S.row_complete (elites.getD (rho k % elites.length) ([], 0)).1 :=
    he _ (getD_mem_of_lt elites ([], 0) _ (Nat.mod_lt _ he1))
  have hq2 : S.row_complete (pool.getD (rho (k + 1) % pool.length) ([], 0)).1 :=
    hp _ (getD_mem_of_lt pool ([], 0) _ (Nat.mod_lt _ hp1))
  have hcc : S.row_complete (S.cross_child (elites.getD (rho k % elites.length) ([], 0)).1
      (pool.getD (rho (k + 1) % pool.length) ([], 0)).1
      (rho (k + 2) % 2 == 0) (fun r => rho (k + 3 + r) % 2 == 0)) :=
    cross_child_row_complete S _ _ hq1 hq2
  by_cases hmut : rho (k + 3 + S.N) % 5 < 2
  · simp only [Solver.make_child, if_pos hmut]
    exact mutate_child_row_complete S _ _ _ hcc
  · simp only [Solver.make_child, if_neg hmut]
    exact hcc

theorem regrow_row_complete (S : Solver) (rho : Nat → Nat)
    {elites pool : List (Board × Nat)} (B : BeliefSpace)
    (he : ∀ p ∈ elites, S.row_complete p.1) (hp : ∀ p ∈ pool, S.row_complete p.1)
    (hene : elites ≠ []) :
    ∀ (n k : Nat), (0 < n → pool ≠ []) →
      ∀ p ∈ (S.regrow rho elites pool B k n).1, S.row_complete p.1 := by
  intro n
  induction n with
  | zero =>
      intro k _ p hpm
      simp [Solver.regrow] at hpm
  | succ m ih =>
      intro k hpne p hpm
      have hstep : (S.regrow rho elites pool B k (m + 1)).1 =
          ((S.make_child rho elites pool B k).1,
            S.fitness (S.make_child rho elites pool B k).1) ::
            (S.regrow rho elites pool B (S.make_child rho elites pool B k).2 m).1 := rfl
      rw [hstep] at hpm
      rcases List.mem_cons.mp hpm with rfl | hpm2
      · exact make_child_row_complete S rho B k he hp hene (hpne (by omega))
      · exact ih _ (fun hm => hpne (by omega)) p hpm2

theorem conflicted_cells_spec (S : Solver) (b : Board) :
    ∀ rc ∈ S.get_conflicted_cells b,
      rc.1 < S.N ∧ rc.2 < S.N ∧ S.fixedAt rc.1 rc.2 = false := by
  intro rc h
  rcases List.mem_filter.mp h with ⟨hmem, hconf⟩
  obtain ⟨r, c⟩ := rc
  have hall := (mem_all_cells S r c).mp hmem
  refine ⟨hall.1, hall.2, ?_⟩
  simp only [Solver.in_conflict, Bool.and_eq_true] at hconf
  simpa using hconf.1

theorem polished_row_complete (S : Solver) {cb : Board} (hcb : S.row_complete cb)
    {bad : List (Nat × Nat)}
    (hbad : ∀ rc ∈ bad, rc.1 < S.N ∧ rc.2 < S.N ∧ S.fixedAt rc.1 rc.2 = false)
    (hne : ¬ bad.length = 0) (i j : Nat)
    (hmne : ¬ (S.mutable_cols_of (choose_cell bad i).1 (choose_cell bad i).2).length = 0) :
    S.row_complete (swap_in_row cb (choose_cell bad i).1
      (choose_cell bad i).2
      ((S.mutable_cols_of (choose_cell bad i).1 (choose_cell bad i).2).getD
        (j % (S.mutable_cols_of (choose_cell bad i).1 (choose_cell bad i).2).length) 0)) := by
  have hrc : choose_cell bad i ∈ bad := by
    unfold choose_cell
    exact getD_mem_of_lt bad (0, 0) _ (Nat.mod_lt _ (by omega))
  rcases hbad _ hrc with ⟨h1, h2, h3⟩
  have hc2m : (S.mutable_cols_of (choose_cell bad i).1 (choose_cell bad i).2).getD
      (j % (S.mutable_cols_of (choose_cell bad i).1 (choose_cell bad i).2).length) 0 ∈
      S.mutable_cols_of (choose_cell bad i).1 (choose_cell bad i).2 :=
    getD_mem_of_lt _ 0 _ (Nat.mod_lt _ (by omega))
  have hc2 : (S.mutable_cols_of (choose_cell bad i).1 (choose_cell bad i).2).getD
      (j % (S.mutable_cols_of (choose_cell bad i).1 (choose_cell bad i).2).length) 0 < S.N ∧
      S.fixedAt (choose_cell bad i).1
        ((S.mutable_cols_of (choose_cell bad i).1 (choose_cell bad i).2).getD
          (j % (S.mutable_cols_of (choose_cell bad i).1 (choose_cell bad i).2).length) 0)
        = false := by
    rcases List.mem_filter.mp hc2m with ⟨hm1, hm2⟩
    refine ⟨List.mem_range.mp hm1, ?_⟩
    simp only [Bool.and_eq_true] at hm2
    simpa using hm2.1
  exact swap_in_row_row_complete S hcb h2 hc2.1 h3 hc2.2

theorem polish_step_row_complete (S : Solver) (rho : Nat → Nat)
    (pop1 : List (Board × Nat)) (cb : Board) (cf : Nat) (bad : List (Nat × Nat))
    (b1 : Board) (bf1 : Nat) (it k : Nat)
    (hpop : ∀ p ∈ pop1, S.row_complete p.1) (hcb : S.row_complete cb)
    (hb1 : S.row_complete b1)
    (hbad : ∀ rc ∈ bad, rc.1 < S.N ∧ rc.2 < S.N ∧ S.fixedAt rc.1 rc.2 = false) :
    ∀ po : PolishOut, po = S.polish_step rho pop1 cb cf bad b1 bf1 it k →
      (∀ p ∈ po.pop, S.row_complete p.1) ∧ S.row_complete po.best ∧
        ∀ e ∈ po.evs, ∀ bb ∈ event_boards e, S.row_complete bb := by
  intro po hpo
  simp only [Solver.polish_step] at hpo
  repeat' split at hpo
  all_goals subst hpo
  all_goals
    refine ⟨?_, ?_, ?_⟩
  all_goals
    first
      | exact hpop
      | exact hb1
      | (intro p hpm
         rcases List.mem_cons.mp hpm with rfl | hpm2
         · simp only [clone_board_eq]
           exact polished_row_complete S hcb hbad (by assumption) _ _ (by assumption)
         · exact hpop p (List.mem_of_mem_tail hpm2))
      | (simp only [clone_board_eq]
         exact polished_row_complete S hcb hbad (by assumption) _ _ (by assumption))
      | (intro e he bb hbb
         simp only [List.mem_cons, List.not_mem_nil, or_false] at he
         first
           | (rcases he with rfl | rfl | rfl
              · simp [event_boards] at hbb
              · simp [event_boards] at hbb
              · simp only [event_boards, List.mem_singleton] at hbb
                subst hbb
                simp only [clone_board_eq]
                exact polished_row_complete S hcb hbad (by assumption) _ _ (by assumption))
           | (rcases he with rfl | rfl
              · simp [event_boards] at hbb
              · simp [event_boards] at hbb))
      | (intro e he
         simp at he)

theorem polish_step_pop_ne (S : Solver) (rho : Nat → Nat) (pop1 : List (Board × Nat))
    (cb : Board) (cf : Nat) (bad : List (Nat × Nat)) (b1 : Board) (bf1 : Nat) (it k : Nat)
    (h : pop1 ≠ []) :
    ∀ po : PolishOut, po = S.polish_step rho pop1 cb cf bad b1 bf1 it k → po.pop ≠ [] := by
  intro po hpo
  simp only [Solver.polish_step] at hpo
  repeat' split at hpo
  all_goals subst hpo
  all_goals first | exact h | exact List.cons_ne_nil _ _

theorem iter_tail_row_complete (S : Solver) (rho : Nat → Nat) (B : BeliefSpace)
    (ev0 : Event) (po : PolishOut) (it : Nat)
    (hev0 : ∀ bb ∈ event_boards ev0, S.row_complete bb)
    (hpo : (∀ p ∈ po.pop, S.row_complete p.1) ∧ S.row_complete po.best ∧
      ∀ e ∈ po.evs, ∀ bb ∈ event_boards e, S.row_complete bb)
    (hpne : po.pop ≠ []) :
    state_ok S (S.iter_tail rho B ev0 po it).st ∧
      ∀ e ∈ (S.iter_tail rho B ev0 po it).evs, ∀ bb ∈ event_boards e, S.row_complete bb := by
  by_cases hf : po.finished = true
  · simp only [Solver.iter_tail, if_pos hf]
    refine ⟨⟨hpne, hpo.1, hpo.2.1⟩, ?_⟩
    intro e he bb hbb
    rcases List.mem_cons.mp he with rfl | he2
    · exact hev0 bb hbb
    · exact hpo.2.2 e he2 bb hbb
  · simp only [Solver.iter_tail, if_neg hf]
    set elites2 := (po.pop.take S.num_elite).map
      (fun p => (clone_board p.1, (po.pop.headD ([], 0)).2)) with he2
    set pool := po.pop.take (S.pop_size / 2) with hpl
    have helOK : ∀ p ∈ elites2, S.row_complete p.1 := by
      intro p hpm
      rw [he2] at hpm
      rcases List.mem_map.mp hpm with ⟨q, hq, rfl⟩
      simp only [clone_board_eq]
      exact hpo.1 q (List.take_subset _ _ hq)
    have hene2 : elites2 ≠ [] := by
      rw [he2]
      intro hcon
      rcases List.take_eq_nil_iff.mp (List.map_eq_nil_iff.mp hcon) with h2 | h2
      · have : 2 ≤ S.num_elite := le_max_left _ _
        omega
      · exact hpne h2
    have hpoolOK : ∀ p ∈ pool, S.row_complete p.1 := by
      intro p hpm
      rw [hpl] at hpm
      exact hpo.1 p (List.take_subset _ _ hpm)
    have hpoolne : 0 < S.pop_size - elites2.length → pool ≠ [] := by
      intro hn
      have hl1 : 1 ≤ elites2.length := by
        rw [he2, List.length_map, List.length_take]
        have h1 : 0 < po.pop.length := List.length_pos.mpr hpne
        have h2 : 2 ≤ S.num_elite := le_max_left _ _
        exact Nat.le_min.mpr ⟨by omega, by omega⟩
      rw [hpl]
      intro hcon
      rcases List.take_eq_nil_iff.mp hcon with h2 | h2
      · omega
      · exact hpne h2
    have hchOK : ∀ p ∈ (S.regrow rho elites2 pool B po.ctr
        (S.pop_size - elites2.length)).1, S.row_complete p.1 :=
      regrow_row_complete S rho B helOK hpoolOK hene2 _ _ hpoolne
    have hpop3 : ∀ p ∈ elites2 ++ (S.regrow rho elites2 pool B po.ctr
        (S.pop_size - elites2.length)).1, S.row_complete p.1 := by
      intro p hpm
      rcases List.mem_append.mp hpm with h1 | h1
      · exact helOK p h1
      · exact hchOK p h1
    have hne3 : elites2 ++ (S.regrow rho elites2 pool B po.ctr
        (S.pop_size - elites2.length)).1 ≠ [] := by
      intro hcon
      exact hene2 (List.append_eq_nil.mp hcon).1
    by_cases hz : po.best_fit = 0
    · rw [if_pos hz]
      refine ⟨⟨hne3, hpop3, hpo.2.1⟩, ?_⟩
      intro e he bb hbb
      rcases List.mem_cons.mp he with rfl | he2
      · exact hev0 bb hbb
      · rcases List.mem_append.mp he2 with h1 | h1
        · exact hpo.2.2 e h1 bb hbb
        · simp only [List.mem_singleton] at h1
          subst h1
          simp only [event_boards, List.mem_singleton] at hbb
          subst hbb
          exact hpo.2.1
    · rw [if_neg hz]
      refine ⟨⟨hne3, hpop3, hpo.2.1⟩, ?_⟩
      intro e he bb hbb
      rcases List.mem_cons.mp he with rfl | he2
      · exact hev0 bb hbb
      · exact hpo.2.2 e he2 bb hbb

theorem iter_body_state_ok (S : Solver) (rho : Nat → Nat) (s : GState) (it : Nat)
    (hs : state_ok S s) :
    state_ok S (S.iter_body rho s it).st ∧
      ∀ e ∈ (S.iter_body rho s it).evs, ∀ bb ∈ event_boards e, S.row_complete bb := by
  rcases hs with ⟨hne, hpop, hbest⟩
  have hp1ne : sort_by_fit s.pop ≠ [] := by
    intro hcon
    have := congrArg List.length hcon
    rw [sort_by_fit, List.length_mergeSort] at this
    exact hne (List.length_eq_zero.mp this)
  have hp1OK : ∀ p ∈ sort_by_fit s.pop, S.row_complete p.1 := by
    intro p hpm
    exact hpop p (List.mem_mergeSort.mp hpm)
  have hcbOK : S.row_complete ((sort_by_fit s.pop).headD ([], 0)).1 := by
    apply hp1OK
    match hm : sort_by_fit s.pop, hp1ne with
    | p :: t, _ => exact List.mem_cons_self p t
  have hb1OK : S.row_complete (if ((sort_by_fit s.pop).headD ([], 0)).2 < s.best_fit
      then clone_board ((sort_by_fit s.pop).headD ([], 0)).1 else s.best) := by
    split
    · rw [clone_board_eq]; exact hcbOK
    · exact hbest
  have hpolish := polish_step_row_complete S rho (sort_by_fit s.pop)
    ((sort_by_fit s.pop).headD ([], 0)).1 ((sort_by_fit s.pop).headD ([], 0)).2
    (S.get_conflicted_cells ((sort_by_fit s.pop).headD ([], 0)).1)
    (if ((sort_by_fit s.pop).headD ([], 0)).2 < s.best_fit
      then clone_board ((sort_by_fit s.pop).headD ([], 0)).1 else s.best)
    (if ((sort_by_fit s.pop).headD ([], 0)).2 < s.best_fit
      then ((sort_by_fit s.pop).headD ([], 0)).2 else s.best_fit)
    it s.ctr hp1OK hcbOK hb1OK
    (conflicted_cells_spec S ((sort_by_fit s.pop).headD ([], 0)).1) _ rfl
  have hpopn := polish_step_pop_ne S rho (sort_by_fit s.pop)
    ((sort_by_fit s.pop).headD ([], 0)).1 ((sort_by_fit s.pop).headD ([], 0)).2
    (S.get_conflicted_cells ((sort_by_fit s.pop).headD ([], 0)).1)
    (if ((sort_by_fit s.pop).headD ([], 0)).2 < s.best_fit
      then clone_board ((sort_by_fit s.pop).headD ([], 0)).1 else s.best)
    (if ((sort_by_fit s.pop).headD ([], 0)).2 < s.best_fit
      then ((sort_by_fit s.pop).headD ([], 0)).2 else s.best_fit)
    it s.ctr hp1ne _ rfl
  have hev0 : ∀ bb ∈ event_boards (Event.iter
      (clone_board ((sort_by_fit s.pop).headD ([], 0)).1)
      (if ((sort_by_fit s.pop).headD ([], 0)).2 < s.best_fit
        then ((sort_by_fit s.pop).headD ([], 0)).2 else s.best_fit)
      it (S.get_conflicted_cells ((sort_by_fit s.pop).headD ([], 0)).1)),
      S.row_complete bb := by
    intro bb hbb
    simp only [event_boards, List.mem_singleton] at hbb
    subst hbb
    rw [clone_board_eq]
    exact hcbOK
  exact iter_tail_row_complete S rho
    (s.belief.update (S.elites_of s.pop) S.get_conflicted_cells)
    (Event.iter (clone_board ((sort_by_fit s.pop).headD ([], 0)).1)
      (if ((sort_by_fit s.pop).headD ([], 0)).2 < s.best_fit
        then ((sort_by_fit s.pop).headD ([], 0)).2 else s.best_fit)
      it (S.get_conflicted_cells ((sort_by_fit s.pop).headD ([], 0)).1))
    (S.polish_step rho (sort_by_fit s.pop)
      ((sort_by_fit s.pop).headD ([], 0)).1 ((sort_by_fit s.pop).headD ([], 0)).2
      (S.get_conflicted_cells ((sort_by_fit s.pop).headD ([], 0)).1)
      (if ((sort_by_fit s.pop).headD ([], 0)).2 < s.best_fit
        then clone_board ((sort_by_fit s.pop).headD ([], 0)).1 else s.best)
      (if ((sort_by_fit s.pop).headD ([], 0)).2 < s.best_fit
        then ((sort_by_fit s.pop).headD ([], 0)).2 else s.best_fit)
      it s.ctr)
    it hev0 hpolish hpopn

theorem solve_loop_event_complete (S : Solver) (rho : Nat → Nat) :
    ∀ (its : List Nat) (s : GState), state_ok S s →
      ∀ e ∈ S.solve_loop rho its s, ∀ bb ∈ event_boards e, S.row_complete bb := by
  intro its
  induction its with
  | nil =>
      intro s hs e he bb hbb
      simp only [Solver.solve_loop, List.mem_singleton] at he
      subst he
      simp only [event_boards, List.mem_singleton] at hbb
      subst hbb
      exact hs.2.2
  | cons it rest ih =>
      intro s hs e he bb hbb
      rcases iter_body_state_ok S rho s it hs with ⟨hst, hevs⟩
      simp only [Solver.solve_loop] at he
      by_cases hf : (S.iter_body rho s it).finished = true
      · rw [if_pos hf] at he
        exact hevs e he bb hbb
      · rw [if_neg hf] at he
        rcases List.mem_append.mp he with h1 | h1
        · exact hevs e h1 bb hbb
        · exact ih _ hst e h1 bb hbb

theorem pop_init_complete (S : Solver) (rho : Nat → Nat) (hwf : S.wf) :
    ∀ (n k : Nat), (S.pop_init rho k n).1.length = n ∧
      ∀ p ∈ (S.pop_init rho k n).1, S.row_complete p.1 := by
  intro n
  induction n with
  | zero =>
      intro k
      refine ⟨rfl, ?_⟩
      intro p hp
      simp [Solver.pop_init] at hp
  | succ m ih =>
      intro k
      have hstep : (S.pop_init rho k (m + 1)).1 =
          ((S.random_ind rho k).1, S.fitness (S.random_ind rho k).1) ::
            (S.pop_init rho (S.random_ind rho k).2 m).1 := rfl
      constructor
      · rw [hstep]
        simp [(ih _).1]
      · rw [hstep]
        intro p hp
        rcases List.mem_cons.mp hp with rfl | hp2
        · exact random_ind_row_complete S rho k hwf
        · exact (ih _).2 p hp2

/-- C1: for a puzzle whose rows each hold pairwise-distinct nonzero in-range
clues, every candidate board produced at any point in a run — the initial
individuals, every crossover child, every mutated child, every polished
clone (swap of non-fixed cells within a row), and every board carried by an
emitted event — has each row a permutation of `[1, N]` with every fixed cell
retaining its original clue value. -/
theorem solver_row_completeness (S : Solver) (rho : Nat → Nat)
    (hwf : S.wf) (hpos : 1 ≤ S.pop_size) :
    (∀ k, S.row_complete (S.random_ind rho k).1) ∧
    (∀ (p1 p2 : Board) (bc : Bool) (rc : Nat → Bool), S.row_complete p1 →
      S.row_complete p2 → S.row_complete (S.cross_child p1 p2 bc rc)) ∧
    (∀ (b : Board) (r i j : Nat), S.row_complete b →
      S.row_complete (S.mutate_child b r i j)) ∧
    (∀ (b : Board) (r c1 c2 : Nat), S.row_complete b → c1 < S.N → c2 < S.N →
      S.fixedAt r c1 = false → S.fixedAt r c2 = false →
      S.row_complete (swap_in_row b r c1 c2)) ∧
    (∀ e ∈ S.solve_gen rho, ∀ bb ∈ event_boards e, S.row_complete bb) := by
  refine ⟨fun k => random_ind_row_complete S rho k hwf,
    fun p1 p2 bc rc h1 h2 => cross_child_row_complete S bc rc h1 h2,
    fun b r i j h => mutate_child_row_complete S r i j h,
    fun b r c1 c2 h hc1 hc2 hf1 hf2 => swap_in_row_row_complete S h hc1 hc2 hf1 hf2, ?_⟩
  intro e he bb hbb
  have hpi := pop_init_complete S rho hwf S.pop_size 0
  have hpne : (S.pop_init rho 0 S.pop_size).1 ≠ [] := by
    intro hcon
    rw [hcon] at hpi
    have := hpi.1
    simp at this
    omega
  have hbest := min_by_fit_mem hpne
  have hbestRC : S.row_complete (min_by_fit (S.pop_init rho 0 S.pop_size).1).1 :=
    hpi.2 _ hbest.1
  simp only [Solver.solve_gen] at he
  rcases List.mem_cons.mp he with rfl | he2
  · simp only [event_boards, List.mem_singleton] at hbb
    subst hbb
    rw [clone_board_eq]
    exact hbestRC
  · exact solve_loop_event_complete S rho _ _ ⟨hpne, hpi.2, hbestRC⟩ e he2 bb hbb

theorem solver_row_completeness_witness :
    (open_solver.wf ∧ 1 ≤ open_solver.pop_size) ∧
      ((∀ k, open_solver.row_complete (open_solver.random_ind rho0 k).1) ∧
      (∀ (p1 p2 : Board) (bc : Bool) (rc : Nat → Bool), open_solver.row_complete p1 →
        open_solver.row_complete p2 →
        open_solver.row_complete (open_solver.cross_child p1 p2 bc rc)) ∧
      (∀ (b : Board) (r i j : Nat), open_solver.row_complete b →
        open_solver.row_complete (open_solver.mutate_child b r i j)) ∧
      (∀ (b : Board) (r c1 c2 : Nat), open_solver.row_complete b → c1 < open_solver.N →
        c2 < open_solver.N → open_solver.fixedAt r c1 = false →
        open_solver.fixedAt r c2 = false →
        open_solver.row_complete (swap_in_row b r c1 c2)) ∧
      (∀ e ∈ open_solver.solve_gen rho0, ∀ bb ∈ event_boards e,
        open_solver.row_complete bb)) :=
  ⟨⟨by decide, by decide⟩, solver_row_completeness open_solver rho0 (by decide) (by decide)⟩

end Sudoku
